import Mathlib

/-!
# UTXO structure upgrade and UTXO generator: a shallow embedding

Two Go tools are embedded here.

* `utxo_upgrade.go` migrates per-owner UTXO chains stored in a key-value
  database from the v0.3.0 (flat list) and v0.4.0 (embedded chain) encodings
  to the v0.5.0 linked-list layout.
* `utxo_generator.go` rebuilds the UTXO index from the block log and offers
  an administrative delete.

Go byte slices and Go strings are both modelled as lists of naturals (a byte
is a natural below 256; every statement that holds for all lists of naturals
holds for all byte strings).  The key-value store, the protobuf codecs and the
`go-dappley` packages are external to the repository; the store is modelled
as an association list with an explicit schedule of write failures, and the
codecs are parameters.
-/

/-- Go `[]byte` and Go `string` values. -/
abbrev Bytes := List Nat

/-- Error values the two tools produce or receive. -/
inductive Err where
  | ErrKeyInvalid
  | ErrBlockDoesNotExist
  | ErrTailHashDoesNotExist
  | ErrTargetHeightNotValid
  | ErrFileNotExist
  | storeFault
  | protoFault
  | hexFault
  | backupFault
  deriving DecidableEq, Repr

/-! ## The key-value store (`storage.Storage`) -/

/-- Lookup in an association list of store entries. -/
def kvGet : List (Bytes × Bytes) → Bytes → Option Bytes
  | [], _ => none
  | (k', v) :: rest, k => if k' = k then some v else kvGet rest k

/-- Removal of every entry stored under a key. -/
def kvDel : List (Bytes × Bytes) → Bytes → List (Bytes × Bytes)
  | [], _ => []
  | (k', v) :: rest, k => if k' = k then kvDel rest k else (k', v) :: kvDel rest k

/-- Insertion that replaces the entry stored under the key. -/
def kvPut (l : List (Bytes × Bytes)) (k v : Bytes) : List (Bytes × Bytes) :=
  (k, v) :: kvDel l k

/-- A database: its entries and the outcomes of the write calls still to come
(`true` means that the call fails with an I/O error and changes no entry; an
exhausted schedule means that every further call succeeds). -/
structure DB where
  kv : List (Bytes × Bytes)
  faults : List Bool
  deriving DecidableEq, Repr

namespace DB

/-- The result of `db.Get(key)`: `none` stands for `(nil, ErrKeyInvalid)`. -/
def Get (db : DB) (k : Bytes) : Option Bytes := kvGet db.kv k

/-- The result of `db.Put(key, value)`: the error, if any, and the database
after the call. -/
def Put (db : DB) (k v : Bytes) : Option Err × DB :=
  match db.faults with
  | true :: fs => (some Err.storeFault, { kv := db.kv, faults := fs })
  | false :: fs => (none, { kv := kvPut db.kv k v, faults := fs })
  | [] => (none, { kv := kvPut db.kv k v, faults := [] })

/-- The result of `db.Del(key)`: the error, if any, and the database after the
call.  Deleting an absent key succeeds. -/
def Del (db : DB) (k : Bytes) : Option Err × DB :=
  match db.faults with
  | true :: fs => (some Err.storeFault, { kv := db.kv, faults := fs })
  | false :: fs => (none, { kv := kvDel db.kv k, faults := fs })
  | [] => (none, { kv := kvDel db.kv k, faults := [] })

end DB

/-! ## Standard-library renderings -/

/-- One lowercase hexadecimal digit, as its ASCII code. -/
def hexDigit (d : Nat) : Nat := if d < 10 then 48 + d else 87 + d

/-- Go `hex.EncodeToString`: two lowercase hexadecimal digits per byte. -/
def hexEncode : Bytes → Bytes
  | [] => []
  | b :: rest => hexDigit (b / 16) :: hexDigit (b % 16) :: hexEncode rest

/-- The value of one hexadecimal digit given by its ASCII code, if it is one
(`hex.DecodeString` accepts both letter cases). -/
def hexVal (c : Nat) : Option Nat :=
  if 48 ≤ c ∧ c ≤ 57 then some (c - 48)
  else if 97 ≤ c ∧ c ≤ 102 then some (c - 87)
  else if 65 ≤ c ∧ c ≤ 70 then some (c - 55)
  else none

/-- Go `hex.DecodeString`: `none` stands for a non-nil error (odd length or a
character that is no hexadecimal digit). -/
def hexDecode : Bytes → Option Bytes
  | [] => some []
  | [_] => none
  | a :: b :: rest =>
    match hexVal a, hexVal b, hexDecode rest with
    | some x, some y, some r => some ((x * 16 + y) :: r)
    | _, _, _ => none

/-- Decimal digits of a natural number, most significant first, as ASCII. -/
def natDec (n : Nat) : Bytes :=
  if n = 0 then [48] else ((Nat.digits 10 n).reverse.map (fun d => 48 + d))

/-- Go `strconv.Itoa`. -/
def Itoa (i : Int) : Bytes :=
  if i < 0 then 45 :: natDec i.natAbs else natDec i.natAbs

/-- Go `util.Str2bytes`: the bytes of a string. -/
def Str2bytes (s : Bytes) : Bytes := s

/-- The method `account.PubKeyHash.String` of `go-dappley`: the hexadecimal
rendering of the hash, the form `isValidUtxotx` compares it with and
`ConvertAndSaveUtxoIndexToDB` decodes it from. -/
def PubKeyHashString (pkh : Bytes) : Bytes := hexEncode pkh

/-! ## utxo_upgrade.go: data model -/

namespace Upgrade

/-- The protobuf message `Utxo` of the legacy schemas, with the fields that
`OldUTXO.FromProto` reads and the `NextUtxoKey` field of the v0.4.0 schema
(`none` is Go `nil`). -/
structure UtxoPb where
  Amount : Bytes
  PublicKeyHash : Bytes
  Txid : Bytes
  TxIndex : Nat
  UtxoType : Nat
  Contract : Bytes
  NextUtxoKey : Option Bytes
  deriving DecidableEq, Repr

/-- The struct `OldUTXO` (the embedded `transactionbase.TXOutput` contributes
`Value`, `PubKeyHash` and `Contract`). -/
structure OldUTXO where
  Value : Nat
  PubKeyHash : Bytes
  Contract : Bytes
  Txid : Bytes
  TxIndex : Int
  UtxoType : Int
  deriving DecidableEq, Repr

/-- The struct `UTXOTxOld`. -/
structure UTXOTxOld where
  Key : List Bytes
  UTXO : List OldUTXO
  deriving DecidableEq, Repr

/-- Modelled from the spec: the struct `utxo.UTXO` of `go-dappley` is not in
the repository; the spec's UTXO record has a value, an owner hash, a source
transaction id, an output index, a contract payload, a kind and a `priorKey`,
which the source calls `NextUtxoKey` (empty when the record is the oldest). -/
structure UTXO where
  Value : Nat
  PubKeyHash : Bytes
  Contract : Bytes
  Txid : Bytes
  TxIndex : Int
  UtxoType : Int
  NextUtxoKey : Bytes
  deriving DecidableEq, Repr

/-- The struct `UTXOTxNew`. -/
structure UTXOTxNew where
  Key : List Bytes
  UTXO : List UTXO
  deriving DecidableEq, Repr

/-- The struct `OldUtxoIndex`. -/
structure OldUtxoIndex where
  PublicKey : List Bytes
  OldUTXOTx : List UTXOTxOld
  deriving DecidableEq, Repr

/-- The protobuf codecs the tool calls; they live outside the repository.
`none` stands for a non-nil error of `proto.Unmarshal` or `proto.Marshal`. -/
structure Proto where
  unmarshalV3 : Bytes → Option (List UtxoPb)
  unmarshalV4 : Bytes → Option UtxoPb
  marshalNew : UTXO → Option Bytes
  unmarshalNew : Bytes → Option UTXO

/-- Go `common.NewAmountFromBytes`: the big-endian value of the bytes. -/
def NewAmountFromBytes (b : Bytes) : Nat := b.foldl (fun acc x => acc * 256 + x) 0

/-- The method `OldUTXO.FromProto`; its type assertion is taken to succeed. -/
def FromProto (pb : UtxoPb) : OldUTXO :=
  { Value := NewAmountFromBytes pb.Amount
    PubKeyHash := pb.PublicKeyHash
    Contract := pb.Contract
    Txid := pb.Txid
    TxIndex := Int.ofNat pb.TxIndex
    UtxoType := Int.ofNat pb.UtxoType }

/-- The constructor `NewUTXOTxOld`. -/
def NewUTXOTxOld : UTXOTxOld := { Key := [], UTXO := [] }

/-- The constructor `NewUTXOTxNew`. -/
def NewUTXOTxNew : UTXOTxNew := { Key := [], UTXO := [] }

/-- The key that `UTXOTxOld.PutUtxo` builds: the transaction id, an underscore
and the decimal output index. -/
def oldKey (u : OldUTXO) : Bytes := u.Txid ++ 95 :: Itoa u.TxIndex

/-- The method `UTXOTxOld.PutUtxo`. -/
def UTXOTxOld.PutUtxo (t : UTXOTxOld) (u : OldUTXO) : UTXOTxOld :=
  { Key := t.Key ++ [oldKey u], UTXO := t.UTXO ++ [u] }

/-- The embedded-chain loop of `DeserializeUTXOTx`: `cur` is the message held
in `v4utxo`, `acc` the list built so far.  `none` means that the fuel ran out
before the loop ended. -/
def decodeChain (P : Proto) : Nat → UtxoPb → UTXOTxOld → Option (Option Err × UTXOTxOld)
  | 0, _, _ => none
  | fuel + 1, cur, acc =>
    match cur.NextUtxoKey with
    | none => some (none, acc)
    | some next =>
      let acc' := acc.PutUtxo (FromProto cur)
      match P.unmarshalV4 next with
      | none => some (some Err.protoFault, acc')
      | some nxt => decodeChain P fuel nxt acc'

/-- The function `DeserializeUTXOTx`. -/
def DeserializeUTXOTx (P : Proto) (fuel : Nat) (d : Bytes) (version : String) :
    Option (Option Err × UTXOTxOld) :=
  if version = "v0.3.0" then
    match P.unmarshalV3 d with
    | none => some (some Err.protoFault, NewUTXOTxOld)
    | some utxos => some (none, utxos.foldl (fun t pb => t.PutUtxo (FromProto pb)) NewUTXOTxOld)
  else
    match P.unmarshalV4 d with
    | none => some (some Err.protoFault, NewUTXOTxOld)
    | some v4utxo => decodeChain P fuel v4utxo NewUTXOTxOld

/-- Modelled from the spec: the method `utxo.UTXO.GetUTXOKey` of `go-dappley` is
not in the repository; the spec derives the UTXO key from the source
transaction id and the output index, and the rendering is the one
`UTXOTxOld.PutUtxo` uses for the same pair. -/
def GetUTXOKey (u : UTXO) : Bytes := u.Txid ++ 95 :: Itoa u.TxIndex

/-- The method `UTXOTxNew.PutUtxo`. -/
def UTXOTxNew.PutUtxo (t : UTXOTxNew) (u : Upgrade.UTXO) : UTXOTxNew :=
  { Key := t.Key ++ [GetUTXOKey u], UTXO := t.UTXO ++ [u] }

/-- The function `isValidUtxoKeyValue`. -/
def isValidUtxoKeyValue (P : Proto) (key value : Bytes) : Bool :=
  match P.unmarshalNew value with
  | none => false
  | some utxo => decide (GetUTXOKey utxo = key)

/-- The loop of `isValidUtxotx` over the entries. -/
def validLoop (pubkey : Bytes) : List OldUTXO → Bool
  | [] => true
  | value :: rest =>
    if hexEncode value.PubKeyHash ≠ pubkey then false
    else if value.Txid.length = 0 then false
    else validLoop pubkey rest

/-- The function `isValidUtxotx`; `none` stands for its panic on lists of
different lengths. -/
def isValidUtxotx (key : Bytes) (utxotxold : UTXOTxOld) : Option Bool :=
  if utxotxold.Key.length ≠ utxotxold.UTXO.length then none
  else some (validLoop (PubKeyHashString key) utxotxold.UTXO)

/-- The method `OldUTXO.ConvertUtxo`; `utxo.NewUTXO` leaves the link empty. -/
def ConvertUtxo (outxo : OldUTXO) : UTXO :=
  { Value := outxo.Value
    PubKeyHash := outxo.PubKeyHash
    Contract := outxo.Contract
    Txid := outxo.Txid
    TxIndex := outxo.TxIndex
    UtxoType := outxo.UtxoType
    NextUtxoKey := [] }

/-- The method `UTXOTxOld.ConvertUtxotx`, whose loop runs from the last entry
down to the first; `none` stands for its panic on lists of different
lengths. -/
def ConvertUtxotx (utxoTxOld : UTXOTxOld) : Option UTXOTxNew :=
  if utxoTxOld.Key.length ≠ utxoTxOld.UTXO.length then none
  else some (utxoTxOld.UTXO.reverse.foldl (fun t u => t.PutUtxo (ConvertUtxo u)) NewUTXOTxNew)

/-- The function `putUTXOToDB`. -/
def putUTXOToDB (P : Proto) (db : DB) (utxo : UTXO) : Option Err × DB :=
  match P.marshalNew utxo with
  | none => (some Err.protoFault, db)
  | some utxoBytes => db.Put (Str2bytes (GetUTXOKey utxo)) utxoBytes

/-- The function `putLastUTXOKeyToDB`. -/
def putLastUTXOKeyToDB (db : DB) (pubkey : Bytes) (lastUtxoKey : Bytes) : Option Err × DB :=
  db.Put (Str2bytes pubkey) lastUtxoKey

/-- The loop of `AddUtxos` over the paired keys and records; it returns the
error, if any, the database and the last key written. -/
def addLoop (P : Proto) : DB → Bytes → List (Bytes × UTXO) → Option Err × DB × Bytes
  | db, lastUtxoKey, [] => (none, db, lastUtxoKey)
  | db, lastUtxoKey, (KEY, u) :: rest =>
    match putUTXOToDB P db { u with NextUtxoKey := lastUtxoKey } with
    | (some err, db') => (some err, db', lastUtxoKey)
    | (none, db') => addLoop P db' (Str2bytes KEY) rest

/-- The outcome of a call that may panic. -/
inductive Run (α : Type) where
  | panicked : Run α
  | returned : α → Run α
  deriving DecidableEq, Repr

/-- The function `AddUtxos`; it panics on lists of different lengths. -/
def AddUtxos (P : Proto) (db : DB) (utxoTx : UTXOTxNew) (pubkey : Bytes) :
    Run (Option Err × DB) :=
  if utxoTx.Key.length ≠ utxoTx.UTXO.length then Run.panicked
  else
    match addLoop P db [] (utxoTx.Key.zip utxoTx.UTXO) with
    | (some err, db', _) => Run.returned (some err, db')
    | (none, db', lastUtxoKey) => Run.returned (putLastUTXOKeyToDB db' pubkey lastUtxoKey)

/-- How a run of `ConvertAndSaveUtxoIndexToDB` ended. -/
inductive Ending where
  | panicked
  | nothingToDo
  | failed
  | completed
  deriving DecidableEq, Repr

/-- The loop of `ConvertAndSaveUtxoIndexToDB` over the collected chains, with
the count of converted chains. -/
def convertLoop (P : Proto) : DB → Nat → List (Bytes × UTXOTxOld) → Ending × DB × Nat
  | db, n, [] => (Ending.completed, db, n)
  | db, n, (pubkey, oldutxotx) :: rest =>
    match ConvertUtxotx oldutxotx with
    | none => (Ending.panicked, db, n)
    | some newutxotx =>
      match hexDecode pubkey with
      | none => (Ending.failed, db, n)
      | some pubkeyhash =>
        match db.Del pubkeyhash with
        | (some _, db1) => (Ending.failed, db1, n)
        | (none, db1) =>
          match AddUtxos P db1 newutxotx pubkey with
          | Run.panicked => (Ending.panicked, db1, n)
          | Run.returned (some _, db2) => (Ending.failed, db2, n)
          | Run.returned (none, db2) => convertLoop P db2 (n + 1) rest

/-- The function `ConvertAndSaveUtxoIndexToDB`; `backupOk` tells whether the
copy of the database directory succeeds.  The result is the way the run
ended, the live database and the number of converted chains. -/
def ConvertAndSaveUtxoIndexToDB (P : Proto) (backupOk : Bool) (db : DB)
    (oldUtxoIndex : OldUtxoIndex) : Ending × DB × Nat :=
  if oldUtxoIndex.PublicKey.length ≠ oldUtxoIndex.OldUTXOTx.length then (Ending.panicked, db, 0)
  else if oldUtxoIndex.PublicKey.length = 0 then (Ending.nothingToDo, db, 0)
  else if backupOk = false then (Ending.panicked, db, 0)
  else convertLoop P db 0 (oldUtxoIndex.PublicKey.zip oldUtxoIndex.OldUTXOTx)

/-- Modelled from the spec: the traversal of an owner chain is not code of the
repository; the spec walks from a key and follows each record's `priorKey`
until it is empty.  The walk stops with `none` when a key is met again, when a
key holds no decodable record, or when the fuel runs out. -/
def walk (P : Proto) (db : DB) : Nat → Bytes → List Bytes → Option (List UTXO)
  | 0, _, _ => none
  | fuel + 1, k, visited =>
    if k ∈ visited then none
    else
      match db.Get k with
      | none => none
      | some raw =>
        match P.unmarshalNew raw with
        | none => none
        | some u =>
          if u.NextUtxoKey = [] then some [u]
          else (walk P db fuel u.NextUtxoKey (k :: visited)).map (fun us => u :: us)

/-- Modelled from the spec: the records of an owner, newest first, found by
walking from the owner's head pointer entry. -/
def traverse (P : Proto) (db : DB) (fuel : Nat) (pubkey : Bytes) : Option (List UTXO) :=
  match db.Get (Str2bytes pubkey) with
  | none => none
  | some head => if head = [] then some [] else walk P db fuel head []

/-! ### A sample codec

The theorems hold for every codec; this one evaluates them on concrete
inputs.  A field is written as its length followed by its content, a number
as one cell. -/

/-- One length-prefixed field and the rest of the buffer. -/
def takeField : Bytes → Option (Bytes × Bytes)
  | [] => none
  | n :: t => if n ≤ t.length then some (t.take n, t.drop n) else none

/-- A sample v0.4.0 decoder: amount, owner hash, transaction id and contract as
fields, index and kind as cells, and whatever follows as the next entry. -/
def sampleUnmarshalV4 (d : Bytes) : Option UtxoPb :=
  match takeField d with
  | none => none
  | some (amount, d1) =>
    match takeField d1 with
    | none => none
    | some (pkh, d2) =>
      match takeField d2 with
      | none => none
      | some (txid, d3) =>
        match d3 with
        | idx :: kind :: d4 =>
          match takeField d4 with
          | none => none
          | some (contract, rest) =>
            some { Amount := amount, PublicKeyHash := pkh, Txid := txid, TxIndex := idx,
                   UtxoType := kind, Contract := contract,
                   NextUtxoKey := if rest = [] then none else some rest }
        | _ => none

/-- A sample v0.3.0 decoder: the entries one after the other. -/
def sampleUnmarshalV3 : Nat → Bytes → Option (List UtxoPb)
  | 0, _ => none
  | fuel + 1, d =>
    if d = [] then some []
    else
      match sampleUnmarshalV4 d with
      | none => none
      | some pb =>
        match pb.NextUtxoKey with
        | none => some [pb]
        | some rest => (sampleUnmarshalV3 fuel rest).map (fun l => { pb with NextUtxoKey := none } :: l)

/-- One integer as two cells: a sign and a magnitude. -/
def encInt (i : Int) : Bytes := [if i < 0 then 1 else 0, i.natAbs]

/-- The integer written by `encInt`. -/
def decInt (s m : Nat) : Int := if s = 1 then -(m : Int) else (m : Int)

/-- A sample current-schema encoder. -/
def sampleMarshalNew (u : UTXO) : Option Bytes :=
  some (u.Value :: (u.PubKeyHash.length :: u.PubKeyHash) ++ (u.Contract.length :: u.Contract)
    ++ (u.Txid.length :: u.Txid) ++ encInt u.TxIndex ++ encInt u.UtxoType ++ u.NextUtxoKey)

/-- A sample current-schema decoder. -/
def sampleUnmarshalNew (d : Bytes) : Option UTXO :=
  match d with
  | [] => none
  | value :: d0 =>
    match takeField d0 with
    | none => none
    | some (pkh, d1) =>
      match takeField d1 with
      | none => none
      | some (contract, d2) =>
        match takeField d2 with
        | none => none
        | some (txid, d3) =>
          match d3 with
          | s1 :: m1 :: s2 :: m2 :: next =>
            some { Value := value, PubKeyHash := pkh, Contract := contract, Txid := txid,
                   TxIndex := decInt s1 m1, UtxoType := decInt s2 m2, NextUtxoKey := next }
          | _ => none

/-- The sample codec. -/
def sampleProto : Proto :=
  { unmarshalV3 := fun d => sampleUnmarshalV3 (d.length + 1) d
    unmarshalV4 := sampleUnmarshalV4
    marshalNew := sampleMarshalNew
    unmarshalNew := sampleUnmarshalNew }

/-- The entries that follow `e` in an embedded chain: the next field of each
entry holds the serialized bytes of the following one, and the next field of
the last entry is empty. -/
def ChainFrom (P : Proto) : UtxoPb → List UtxoPb → Prop
  | e, [] => e.NextUtxoKey = none
  | e, e' :: es => ∃ d', e.NextUtxoKey = some d' ∧ P.unmarshalV4 d' = some e' ∧ ChainFrom P e' es

/-- A value that encodes the chain of nested entries `es`. -/
def EncodesChain (P : Proto) (d : Bytes) : List UtxoPb → Prop
  | [] => False
  | e :: rest => P.unmarshalV4 d = some e ∧ ChainFrom P e rest

/-- A sample embedded-chain value of two entries. -/
def sampleChain2 : Bytes := [1, 5, 1, 171, 2, 1, 2, 0, 0, 0, 1, 7, 1, 171, 2, 3, 4, 1, 0, 0]

/-- The first entry of `sampleChain2`. -/
def sampleEntryA : UtxoPb :=
  { Amount := [5], PublicKeyHash := [171], Txid := [1, 2], TxIndex := 0, UtxoType := 0,
    Contract := [], NextUtxoKey := some [1, 7, 1, 171, 2, 3, 4, 1, 0, 0] }

/-- The second and last entry of `sampleChain2`. -/
def sampleEntryB : UtxoPb :=
  { Amount := [7], PublicKeyHash := [171], Txid := [3, 4], TxIndex := 1, UtxoType := 0,
    Contract := [], NextUtxoKey := none }

/-- The `UTXOTxNew` that `UTXOTxNew.PutUtxo` builds from a list of records,
starting from `NewUTXOTxNew`. -/
def buildNew (recs : List UTXO) : UTXOTxNew :=
  recs.foldl (fun t u => t.PutUtxo u) NewUTXOTxNew

/-- The records as the loop of `AddUtxos` links them: each one points to the
key of the record written before it, the first one to `last`. -/
def threaded : Bytes → List UTXO → List UTXO
  | _, [] => []
  | last, u :: us => { u with NextUtxoKey := last } :: threaded (GetUTXOKey u) us

/-- The state that claim C2 describes after `AddUtxos`: record `i` is stored
under its key with an empty link when `i = 0` and with the key of record
`i - 1` otherwise, and the owner entry holds the key of the last record. -/
def AddUtxosPost (P : Proto) (db' : DB) (pubkey : Bytes) (recs : List UTXO) : Prop :=
  (∀ (i : Nat) (hi : i < recs.length),
      let r := recs.get ⟨i, hi⟩
      let prior := if i = 0 then [] else (recs.map GetUTXOKey).getD (i - 1) []
      ∃ raw, P.marshalNew { r with NextUtxoKey := prior } = some raw
        ∧ db'.Get (GetUTXOKey r) = some raw)
    ∧ db'.Get (Str2bytes pubkey) = (recs.map GetUTXOKey).getLast?

/-- A sample record whose key is the string `t_0`. -/
def sampleRecT : UTXO :=
  { Value := 5, PubKeyHash := [171], Contract := [], Txid := [116], TxIndex := 0,
    UtxoType := 0, NextUtxoKey := [] }

/-- An empty database on which every write succeeds. -/
def emptyDB : DB := { kv := [], faults := [] }

/-- The `UTXOTxOld` that `UTXOTxOld.PutUtxo` builds from a list of decoded
entries, starting from `NewUTXOTxOld`. -/
def buildOld (es : List OldUTXO) : UTXOTxOld :=
  es.foldl (fun t u => t.PutUtxo u) NewUTXOTxOld

/-- The current-schema codec decodes what it encoded. -/
def Proto.RoundTrip (P : Proto) : Prop :=
  ∀ (u : UTXO) (raw : Bytes), P.marshalNew u = some raw → P.unmarshalNew raw = some u

/-- The owner chain of `pubkey` is well-formed: the walk from the head pointer
meets no key twice, ends at a record with an empty link within finitely many
steps (`traverse` returns the visited records), the visited records have
pairwise distinct UTXO keys, and each of them has the owner hash `pkh`. -/
def ChainWellFormed (P : Proto) (db : DB) (pubkey pkh : Bytes) : Prop :=
  ∃ (fuel : Nat) (us : List UTXO),
    traverse P db fuel pubkey = some us ∧ (us.map GetUTXOKey).Nodup
      ∧ ∀ u ∈ us, u.PubKeyHash = pkh

/-- A decoded entry owned by `[171]`. -/
def sampleOldA : OldUTXO :=
  { Value := 5, PubKeyHash := [171], Contract := [], Txid := [1, 2], TxIndex := 0, UtxoType := 0 }

/-- Another decoded entry owned by `[171]`. -/
def sampleOldB : OldUTXO :=
  { Value := 7, PubKeyHash := [171], Contract := [], Txid := [3, 4], TxIndex := 0, UtxoType := 0 }

/-- The database after the migration of the chain `[sampleOldA, sampleOldB]` of
the owner `[171]` into an empty database. -/
def sampleMigratedDB : DB :=
  { kv := [([97, 98], [1, 2, 95, 48]),
           ([1, 2, 95, 48], [5, 1, 171, 0, 2, 1, 2, 0, 0, 0, 0, 3, 4, 95, 48]),
           ([3, 4, 95, 48], [7, 1, 171, 0, 2, 3, 4, 0, 0, 0, 0])],
    faults := [] }

/-- The database after the migration of the chain `[sampleOldA, sampleOldA]`,
two entries with the same transaction id and output index, of the owner
`[171]` into an empty database. -/
def sampleDuplicateDB : DB :=
  { kv := [([97, 98], [1, 2, 95, 48]),
           ([1, 2, 95, 48], [5, 1, 171, 0, 2, 1, 2, 0, 0, 0, 0, 1, 2, 95, 48])],
    faults := [] }

/-- The entries of the database in the order of the iterator: ascending
bytewise order of the keys. -/
def iterate (db : DB) : List (Bytes × Bytes) :=
  db.kv.insertionSort (fun p q => p.1 ≤ q.1)

/-- One round of the loop of `getOldUtxoIndexFromDB`.  `none` means that the
fuel of the decoder ran out. -/
def collectStep (P : Proto) (fuel : Nat) (version : String) (idx : OldUtxoIndex)
    (cur : Bytes × Bytes) : Option (Run OldUtxoIndex) :=
  match DeserializeUTXOTx P fuel cur.2 version with
  | none => none
  | some (err, utxotxold) =>
    let isValidUtxo := isValidUtxoKeyValue P cur.1 cur.2
    if err = none ∧ utxotxold.Key.length ≠ 0 ∧ utxotxold.UTXO.length ≠ 0
        ∧ isValidUtxo = false then
      match isValidUtxotx cur.1 utxotxold with
      | none => some Run.panicked
      | some true =>
        some (Run.returned { PublicKey := idx.PublicKey ++ [PubKeyHashString cur.1],
                             OldUTXOTx := idx.OldUTXOTx ++ [utxotxold] })
      | some false => some (Run.returned idx)
    else some (Run.returned idx)

/-- The loop of `getOldUtxoIndexFromDB` over the entries. -/
def collectLoop (P : Proto) (fuel : Nat) (version : String) :
    OldUtxoIndex → List (Bytes × Bytes) → Option (Run OldUtxoIndex)
  | idx, [] => some (Run.returned idx)
  | idx, cur :: rest =>
    match collectStep P fuel version idx cur with
    | none => none
    | some Run.panicked => some Run.panicked
    | some (Run.returned idx') => collectLoop P fuel version idx' rest

/-- The function `getOldUtxoIndexFromDB`; `openOk` tells whether the database
file can be opened. -/
def getOldUtxoIndexFromDB (P : Proto) (fuel : Nat) (openOk : Bool) (db : DB)
    (version : String) : Option (Run OldUtxoIndex) :=
  if openOk = false then some (Run.returned { PublicKey := [], OldUTXOTx := [] })
  else collectLoop P fuel version { PublicKey := [], OldUTXOTx := [] } (iterate db)

/-- A database that holds one legacy entry under the raw owner hash `[171]`. -/
def sampleLegacyDB : DB := { kv := [([171], sampleChain2)], faults := [] }

/-- The database after the migration of the chain `[sampleOldA]` of the owner
`[171]` out of `sampleLegacyDB`. -/
def sampleConvertedDB : DB :=
  { kv := [([97, 98], [1, 2, 95, 48]), ([1, 2, 95, 48], [5, 1, 171, 0, 2, 1, 2, 0, 0, 0, 0])],
    faults := [] }

end Upgrade

/-! ## utxo_generator.go -/

namespace Generator

/-- Modelled from the spec: the struct `transactionbase.TXOutput` of
`go-dappley`; an output carries a value, an owner hash and a contract
payload. -/
structure TXOutput where
  Value : Nat
  PubKeyHash : Bytes
  Contract : Bytes
  deriving DecidableEq, Repr

/-- Modelled from the spec: a transaction with its id and its ordered outputs
(its inputs are read by no function embedded here). -/
structure Transaction where
  ID : Bytes
  Vout : List TXOutput
  deriving DecidableEq, Repr

/-- Modelled from the spec: a block with its height and its ordered
transactions. -/
structure Block where
  height : Nat
  transactions : List Transaction
  deriving DecidableEq, Repr

/-- The method `Block.GetHeight`, a `uint64`. -/
def Block.GetHeight (b : Block) : Nat := b.height % 2 ^ 64

/-- The method `Block.GetTransactions`. -/
def Block.GetTransactions (b : Block) : List Transaction := b.transactions

/-- The parts of `go-dappley` and of the Go runtime that the generator calls:
`block.Deserialize`, `util.UintToHex`, the order in which `range` visits the
keys of a map, `GetUTXOTx` followed by `RemoveUtxos` of the UTXO cache (given
the decoded owner hash and the owner string), and the UTXO index with its
`UpdateUtxos` and `Save`. -/
structure Env (ι : Type) where
  Deserialize : Bytes → Block
  UintToHex : Nat → Bytes
  rangeOrder : List Bytes → List Bytes
  RemoveUtxos : DB → Bytes → Bytes → Option Err × DB
  NewUTXOIndex : DB → ι
  UpdateUtxos : ι → List Transaction → ι
  Save : ι → DB → Option Err × DB

/-- The variable `tipKey`: the bytes of `tailBlockHash`. -/
def tipKey : Bytes := [116, 97, 105, 108, 66, 108, 111, 99, 107, 72, 97, 115, 104]

/-- The function `GetBlockByHeight`: the error of the second lookup is
dropped, a missing value is passed to `block.Deserialize` as `nil`. -/
def GetBlockByHeight {ι : Type} (E : Env ι) (db : DB) (height : Nat) : Except Err Block :=
  match db.Get (E.UintToHex height) with
  | none => Except.error Err.ErrBlockDoesNotExist
  | some h => Except.ok (E.Deserialize ((db.Get h).getD []))

/-- The function `GetTailBlock`. -/
def GetTailBlock {ι : Type} (E : Env ι) (db : DB) : Except Err Block :=
  match db.Get tipKey with
  | none => Except.error Err.ErrTailHashDoesNotExist
  | some hash => Except.ok (E.Deserialize ((db.Get hash).getD []))

/-- The outputs of the transactions of a block, in the order in which the two
nested `range` loops visit them. -/
def allVouts : List Transaction → List TXOutput
  | [] => []
  | tx :: rest => tx.Vout ++ allVouts rest

/-- What a run of `DeleteAllUtxosFromOldDb` leaves: the returned flag and
error, the database, and the owner hashes it looked up, in order. -/
structure OldDbResult where
  keyExist : Bool
  err : Option Err
  db : DB
  looked : List Bytes
  deriving DecidableEq, Repr

/-- The inner loops of `DeleteAllUtxosFromOldDb` over the outputs of one
block. -/
def delVouts : DB → Bool → List Bytes → List TXOutput → OldDbResult
  | db, keyExist, looked, [] => { keyExist := keyExist, err := none, db := db, looked := looked }
  | db, keyExist, looked, vout :: rest =>
    let pkh := vout.PubKeyHash
    match db.Get pkh with
    | some _ =>
      match db.Del pkh with
      | (some err, db') =>
        { keyExist := keyExist, err := some err, db := db', looked := looked ++ [pkh] }
      | (none, db') => delVouts db' true (looked ++ [pkh]) rest
    | none => delVouts db keyExist (looked ++ [pkh]) rest

/-- The loop of `DeleteAllUtxosFromOldDb` over the heights, a `uint64`
counter.  `none` means that the fuel ran out. -/
def oldDbLoop {ι : Type} (E : Env ι) (tailHeight : Nat) :
    Nat → Nat → DB → Bool → List Bytes → Option OldDbResult
  | 0, _, _, _, _ => none
  | fuel + 1, i, db, keyExist, looked =>
    if i ≤ tailHeight then
      match GetBlockByHeight E db i with
      | Except.error err =>
        some { keyExist := keyExist, err := some err, db := db, looked := looked }
      | Except.ok block =>
        let r := delVouts db keyExist looked (allVouts block.GetTransactions)
        match r.err with
        | some _ => some r
        | none => oldDbLoop E tailHeight fuel ((i + 1) % 2 ^ 64) r.db r.keyExist r.looked
    else some { keyExist := keyExist, err := none, db := db, looked := looked }

/-- The function `DeleteAllUtxosFromOldDb`. -/
def DeleteAllUtxosFromOldDb {ι : Type} (E : Env ι) (fuel : Nat) (db : DB) : Option OldDbResult :=
  match GetTailBlock E db with
  | Except.error err => some { keyExist := false, err := some err, db := db, looked := [] }
  | Except.ok tailBlock => oldDbLoop E tailBlock.GetHeight fuel 0 db false []

/-- The inner loops of the first part of `DeleteAllUtxosFromNewDb`: the owner
strings of the outputs of one block join the set unless they are in it. -/
def addOwners : List Bytes → List TXOutput → List Bytes
  | pubKeySet, [] => pubKeySet
  | pubKeySet, vout :: rest =>
    let pkh := PubKeyHashString vout.PubKeyHash
    if pkh ∈ pubKeySet then addOwners pubKeySet rest else addOwners (pubKeySet ++ [pkh]) rest

/-- The first loop of `DeleteAllUtxosFromNewDb` over the heights: the keys of
`pubKeySet` in the order of their insertion.  `none` means that the fuel ran
out. -/
def ownersLoop {ι : Type} (E : Env ι) (db : DB) (tailHeight : Nat) :
    Nat → Nat → List Bytes → Option (Except Err (List Bytes))
  | 0, _, _ => none
  | fuel + 1, i, pubKeySet =>
    if i ≤ tailHeight then
      match GetBlockByHeight E db i with
      | Except.error err => some (Except.error err)
      | Except.ok block =>
        ownersLoop E db tailHeight fuel ((i + 1) % 2 ^ 64)
          (addOwners pubKeySet (allVouts block.GetTransactions))
    else some (Except.ok pubKeySet)

/-- The first part of `DeleteAllUtxosFromNewDb`: the owner strings found in the
block log. -/
def enumerateOwners {ι : Type} (E : Env ι) (fuel : Nat) (db : DB) :
    Option (Except Err (List Bytes)) :=
  match GetTailBlock E db with
  | Except.error err => some (Except.error err)
  | Except.ok tailBlock => ownersLoop E db tailBlock.GetHeight fuel 0 []

/-- The second loop of `DeleteAllUtxosFromNewDb`.  After a successful lookup
`err` is `nil`, so the check that follows the assignment of `isDeleted` never
returns. -/
def removeLoop {ι : Type} (E : Env ι) : DB → Bool → List Bytes → Bool × Option Err × DB
  | db, isDeleted, [] => (isDeleted, none, db)
  | db, isDeleted, pubkeyStr :: rest =>
    let pkBytes := (hexDecode pubkeyStr).getD []
    match db.Get (Str2bytes pubkeyStr) with
    | none => removeLoop E db isDeleted rest
    | some _ =>
      match E.RemoveUtxos db pkBytes pubkeyStr with
      | (some err, db') => (false, some err, db')
      | (none, db') => removeLoop E db' false rest

/-- The function `DeleteAllUtxosFromNewDb`. -/
def DeleteAllUtxosFromNewDb {ι : Type} (E : Env ι) (fuel : Nat) (db : DB) :
    Option (Bool × Option Err × DB) :=
  match enumerateOwners E fuel db with
  | none => none
  | some (Except.error err) => some (false, some err, db)
  | some (Except.ok pubKeySet) => some (removeLoop E db true (E.rangeOrder pubKeySet))

/-- How a run of `utxoConvertCmdHandler` ended. -/
inductive ConvertEnd where
  | fileMissing
  | noTailBlock
  | startAboveEnd
  | endAboveTail
  | clearFailed
  | blockMissing
  | saveFailed
  | saved
  deriving DecidableEq, Repr

/-- The loop of `utxoConvertCmdHandler` over the heights, a `uint64` counter:
the error, if any, the index, and the heights whose transactions were applied,
in order.  `none` means that the fuel ran out. -/
def convertBlocks {ι : Type} (E : Env ι) (db : DB) (endHeight : Nat) :
    Nat → Nat → ι → List Nat → Option (Option Err × ι × List Nat)
  | 0, _, _, _ => none
  | fuel + 1, i, utxoIndex, done =>
    if i ≤ endHeight then
      match GetBlockByHeight E db i with
      | Except.error err => some (some err, utxoIndex, done)
      | Except.ok block =>
        convertBlocks E db endHeight fuel ((i + 1) % 2 ^ 64)
          (E.UpdateUtxos utxoIndex block.GetTransactions) (done ++ [i])
    else some (none, utxoIndex, done)

/-- The function `utxoConvertCmdHandler`; `fileExists` tells whether the
database file exists.  The result is the way the run ended, the database and
the heights whose transactions were applied. -/
def utxoConvertCmdHandler {ι : Type} (E : Env ι) (fuel : Nat) (fileExists : Bool) (db : DB)
    (startHeight endHeight : Nat) : Option (ConvertEnd × DB × List Nat) :=
  if fileExists = false then some (ConvertEnd.fileMissing, db, [])
  else
    match GetTailBlock E db with
    | Except.error _ => some (ConvertEnd.noTailBlock, db, [])
    | Except.ok tailBlock =>
      let tailHeight := tailBlock.GetHeight
      let endHeight := if endHeight = 0 then tailHeight else endHeight
      if startHeight > endHeight then some (ConvertEnd.startAboveEnd, db, [])
      else if endHeight > tailHeight then some (ConvertEnd.endAboveTail, db, [])
      else
        match DeleteAllUtxosFromOldDb E fuel db with
        | none => none
        | some r =>
          match r.err with
          | some _ => some (ConvertEnd.clearFailed, r.db, [])
          | none =>
            match convertBlocks E r.db endHeight fuel startHeight (E.NewUTXOIndex r.db) [] with
            | none => none
            | some (some _, _, done) => some (ConvertEnd.blockMissing, r.db, done)
            | some (none, utxoIndex, done) =>
              match E.Save utxoIndex r.db with
              | (some _, db') => some (ConvertEnd.saveFailed, db', done)
              | (none, db') => some (ConvertEnd.saved, db', done)

/-! ### A sample environment -/

/-- A sample block decoder: the first cell is the height, every further cell
`c` is an output of the block's single transaction, owned by `[c]`. -/
def sampleDeserialize : Bytes → Block
  | [] => { height := 0, transactions := [] }
  | h :: rest =>
    let vouts : List TXOutput := rest.map (fun c => { Value := 0, PubKeyHash := [c], Contract := [] })
    { height := h, transactions := [{ ID := [], Vout := vouts }] }

/-- A sample `UintToHex`: the eight bytes of the height, most significant
first. -/
def sampleUintToHex (n : Nat) : Bytes :=
  [n / 2 ^ 56 % 256, n / 2 ^ 48 % 256, n / 2 ^ 40 % 256, n / 2 ^ 32 % 256,
   n / 2 ^ 24 % 256, n / 2 ^ 16 % 256, n / 2 ^ 8 % 256, n % 256]

/-- A sample environment: removal deletes the owner entry, the index is the
list of transactions applied, and `Save` writes nothing. -/
def sampleEnv : Env (List Transaction) :=
  { Deserialize := sampleDeserialize
    UintToHex := sampleUintToHex
    rangeOrder := fun l => l
    RemoveUtxos := fun db _ pubkeyStr => db.Del pubkeyStr
    NewUTXOIndex := fun _ => []
    UpdateUtxos := fun idx txs => idx ++ txs
    Save := fun _ db => (none, db) }

/-- A database with a height entry for height 0 that names the hash `[9]`, and
no entry under `[9]`. -/
def sampleDanglingDB : DB := { kv := [(sampleUintToHex 0, [9])], faults := [] }

/-- A database with a one-block log (the tail block, of height 0, has one
output owned by `[171]`), the head pointer of that owner under the string
`ab`, one current-schema record under its UTXO key, and one legacy entry under
the raw owner hash `[171]`. -/
def sampleBlockDB : DB :=
  { kv := [(tipKey, [9]), ([9], [0, 171]), (sampleUintToHex 0, [9]),
           ([97, 98], [1, 2, 95, 48]),
           ([1, 2, 95, 48], [5, 1, 171, 0, 2, 1, 2, 0, 0, 0, 0]),
           ([171], Upgrade.sampleChain2)],
    faults := [] }

/-- A database with the block log of `sampleBlockDB` and no owner entry. -/
def sampleBareDB : DB :=
  { kv := [(tipKey, [9]), ([9], [0, 171]), (sampleUintToHex 0, [9])], faults := [] }

/-- A database whose tail block has height 1 and whose log has no height
entry. -/
def sampleGapDB : DB := { kv := [(tipKey, [9]), ([9], [1])], faults := [] }

end Generator

namespace Upgrade

/-- The v0.4.0 decoder returns a next field that is strictly shorter than the
buffer it decoded: the field is a part of the buffer, which also holds the
field's tag and length. -/
def Proto.NextShorter (P : Proto) : Prop :=
  ∀ (d : Bytes) (e : UtxoPb) (n : Bytes),
    P.unmarshalV4 d = some e → e.NextUtxoKey = some n → n.length < d.length

/-- The test of `getOldUtxoIndexFromDB` on one entry of the store: the value
decodes without error to a non-empty chain, is no current-schema record for
its key, and the chain is valid for the key. -/
def eligible (P : Proto) (fuel : Nat) (version : String) (k v : Bytes) : Bool :=
  match DeserializeUTXOTx P fuel v version with
  | some (none, tx) =>
    decide (tx.Key.length ≠ 0) && decide (tx.UTXO.length ≠ 0)
      && !(isValidUtxoKeyValue P k v) && (isValidUtxotx k tx == some true)
  | _ => false

end Upgrade

namespace Upgrade

/-- A transaction id whose key `sampleCraftedTxid ++ "_0"` reads, under the
sample v0.4.0 decoder, as a chain entry owned by the string `ab`. -/
def sampleCraftedTxid : Bytes := [0, 2, 97, 98, 1, 7, 0, 0, 0, 0, 0, 0, 0, 0, 2]

/-- A database that holds one legacy entry under the raw owner hash `[171]`: a
chain of two entries, the first with the transaction id `sampleCraftedTxid`. -/
def sampleCraftedDB : DB :=
  { kv := [([171], [1, 5, 1, 171, 15] ++ sampleCraftedTxid
             ++ [0, 0, 0, 1, 7, 1, 171, 2, 3, 4, 1, 0, 0])],
    faults := [] }

/-- The chain that discovery collects from `sampleCraftedDB`. -/
def sampleCraftedOld : OldUTXO :=
  { Value := 5, PubKeyHash := [171], Contract := [], Txid := sampleCraftedTxid, TxIndex := 0,
    UtxoType := 0 }

/-- The database after the migration of `sampleCraftedDB`: the head pointer of
the owner under the string `ab` and the record under its UTXO key. -/
def sampleCraftedMigratedDB : DB :=
  { kv := [([97, 98], sampleCraftedTxid ++ [95, 48]),
           (sampleCraftedTxid ++ [95, 48],
            [5, 1, 171, 0, 15] ++ sampleCraftedTxid ++ [0, 0, 0, 0])],
    faults := [] }

/-- The chain that a second discovery reads out of the head pointer entry of
`sampleCraftedMigratedDB`. -/
def sampleCraftedSecond : OldUTXO :=
  { Value := 0, PubKeyHash := [97, 98], Contract := [], Txid := [7], TxIndex := 0,
    UtxoType := 0 }

end Upgrade

namespace Upgrade

/-- The index that `getOldUtxoIndexFromDB` builds from the collected raw store
keys and their decoded chains, in order: the owner string of a chain is
`account.PubKeyHash(curKey).String()`. -/
def indexOf (entries : List (Bytes × List OldUTXO)) : OldUtxoIndex :=
  { PublicKey := entries.map (fun q => PubKeyHashString q.1)
    OldUTXOTx := entries.map (fun q => buildOld q.2) }

/-- The database after the migration of the chains `[sampleOldA]` of the owner
`[171]` and `[sampleOldB]` of the owner `[172]`, in this order, out of
`sampleLegacyDB`. -/
def sampleTwoOwnersDB : DB :=
  { kv := [([97, 99], [3, 4, 95, 48]),
           ([3, 4, 95, 48], [7, 1, 171, 0, 2, 3, 4, 0, 0, 0, 0]),
           ([97, 98], [1, 2, 95, 48]),
           ([1, 2, 95, 48], [5, 1, 171, 0, 2, 1, 2, 0, 0, 0, 0])],
    faults := [] }

end Upgrade

namespace Generator

/-- The raw owner hashes of the outputs of a block, in the order of the
outputs. -/
def ownerHashes (b : Block) : List Bytes :=
  (allVouts b.GetTransactions).map (fun vout => vout.PubKeyHash)

end Generator

/-! ## Theorems -/

/-! ### The store -/

theorem kvGet_kvDel_same (l : List (Bytes × Bytes)) (k : Bytes) : kvGet (kvDel l k) k = none := by
  induction l with
  | nil => rfl
  | cons p rest ih =>
    obtain ⟨k', v⟩ := p
    by_cases h : k' = k
    · simp [kvDel, h, ih]
    · simp [kvDel, kvGet, h, ih]

theorem kvGet_kvDel_ne (l : List (Bytes × Bytes)) (k k' : Bytes) (h : k' ≠ k) :
    kvGet (kvDel l k) k' = kvGet l k' := by
  induction l with
  | nil => rfl
  | cons p rest ih =>
    obtain ⟨k0, v⟩ := p
    by_cases h0 : k0 = k
    · have h2 : ¬ k0 = k' := fun e => h (e.symm.trans h0)
      rw [kvDel, if_pos h0, kvGet, if_neg h2, ih]
    · by_cases h1 : k0 = k'
      · rw [kvDel, if_neg h0, kvGet, if_pos h1, kvGet, if_pos h1]
      · rw [kvDel, if_neg h0, kvGet, if_neg h1, kvGet, if_neg h1, ih]

theorem kvGet_kvPut_same (l : List (Bytes × Bytes)) (k v : Bytes) :
    kvGet (kvPut l k v) k = some v := by
  simp [kvPut, kvGet]

theorem kvGet_kvPut_ne (l : List (Bytes × Bytes)) (k v k' : Bytes) (h : k' ≠ k) :
    kvGet (kvPut l k v) k' = kvGet l k' := by
  have : ¬ k = k' := fun e => h e.symm
  simp [kvPut, kvGet, this, kvGet_kvDel_ne l k k' h]

theorem DB.Put_ok_same (db db' : DB) (k v : Bytes) (h : db.Put k v = (none, db')) :
    db'.Get k = some v := by
  unfold DB.Put at h
  split at h <;> simp at h <;> subst h <;> simp [DB.Get, kvGet_kvPut_same]

theorem DB.Put_ok_ne (db db' : DB) (k v k' : Bytes) (h : db.Put k v = (none, db'))
    (hne : k' ≠ k) : db'.Get k' = db.Get k' := by
  unfold DB.Put at h
  split at h <;> simp at h <;> subst h <;> simp [DB.Get, kvGet_kvPut_ne _ _ _ _ hne]

theorem DB.Del_ok_same (db db' : DB) (k : Bytes) (h : db.Del k = (none, db')) :
    db'.Get k = none := by
  unfold DB.Del at h
  split at h <;> simp at h <;> subst h <;> simp [DB.Get, kvGet_kvDel_same]

theorem DB.Del_ok_ne (db db' : DB) (k k' : Bytes) (h : db.Del k = (none, db'))
    (hne : k' ≠ k) : db'.Get k' = db.Get k' := by
  unfold DB.Del at h
  split at h <;> simp at h <;> subst h <;> simp [DB.Get, kvGet_kvDel_ne _ _ _ hne]

/-! ### Hexadecimal rendering -/

theorem hexDigit_inj (a b : Nat) (h : hexDigit a = hexDigit b) : a = b := by
  unfold hexDigit at h
  split_ifs at h <;> omega

theorem hexEncode_inj (a : Bytes) : ∀ b : Bytes, hexEncode a = hexEncode b → a = b := by
  induction a with
  | nil =>
    intro b h
    cases b with
    | nil => rfl
    | cons y ys => simp [hexEncode] at h
  | cons x xs ih =>
    intro b h
    cases b with
    | nil => simp [hexEncode] at h
    | cons y ys =>
      simp only [hexEncode, List.cons.injEq] at h
      obtain ⟨h1, h2, h3⟩ := h
      have e1 := hexDigit_inj _ _ h1
      have e2 := hexDigit_inj _ _ h2
      rw [ih ys h3]
      congr 1
      omega

theorem hexDigit_ne_underscore (d : Nat) : hexDigit d ≠ 95 := by
  unfold hexDigit
  split_ifs <;> omega

theorem underscore_not_mem_hexEncode (a : Bytes) : 95 ∉ hexEncode a := by
  induction a with
  | nil => simp [hexEncode]
  | cons x xs ih =>
    simp only [hexEncode, List.mem_cons, not_or]
    exact ⟨fun e => hexDigit_ne_underscore _ e.symm, fun e => hexDigit_ne_underscore _ e.symm, ih⟩

theorem hexVal_hexDigit (d : Nat) (h : d < 16) : hexVal (hexDigit d) = some d := by
  unfold hexVal hexDigit
  split_ifs <;> first | omega | (congr 1; omega)

theorem hexDecode_hexEncode (a : Bytes) (h : ∀ b ∈ a, b < 256) :
    hexDecode (hexEncode a) = some a := by
  induction a with
  | nil => rfl
  | cons x xs ih =>
    have hx : x < 256 := h x (List.mem_cons_self _ _)
    have hxs := ih (fun b hb => h b (List.mem_cons_of_mem _ hb))
    simp only [hexEncode, hexDecode, hxs, hexVal_hexDigit (x / 16) (by omega),
      hexVal_hexDigit (x % 16) (by omega)]
    congr 2
    omega

namespace Upgrade

theorem foldl_PutUtxo_old (l : List OldUTXO) (acc : UTXOTxOld) :
    l.foldl (fun t u => t.PutUtxo u) acc
      = { Key := acc.Key ++ l.map oldKey, UTXO := acc.UTXO ++ l } := by
  induction l generalizing acc with
  | nil => simp
  | cons u rest ih =>
    rw [List.foldl_cons, ih]
    simp [UTXOTxOld.PutUtxo]

theorem decodeChain_of_chain (P : Proto) (rest : List UtxoPb) :
    ∀ (fuel : Nat) (e : UtxoPb) (acc : UTXOTxOld), ChainFrom P e rest → rest.length + 1 ≤ fuel →
      decodeChain P fuel e acc
        = some (none, ((e :: rest).dropLast.map FromProto).foldl (fun t u => t.PutUtxo u) acc) := by
  induction rest with
  | nil =>
    intro fuel e acc h hf
    obtain ⟨f, rfl⟩ : ∃ f, fuel = f + 1 := ⟨fuel - 1, by omega⟩
    simp only [ChainFrom] at h
    simp [decodeChain, h]
  | cons e' es ih =>
    intro fuel e acc h hf
    obtain ⟨f, rfl⟩ : ∃ f, fuel = f + 1 := ⟨fuel - 1, by simp at hf; omega⟩
    obtain ⟨d', h1, h2, h3⟩ := h
    have hf' : es.length + 1 ≤ f := by simp at hf; omega
    simp only [decodeChain, h1, h2]
    rw [ih f e' _ h3 hf']
    simp [List.dropLast]

/-- C1 (what the code does): for an embedded-chain value that encodes the
nested entries `es`, `DeserializeUTXOTx` returns no error and records every
entry except the last one, whose next field is empty: the result holds
`es.length - 1` entries, not `es.length`. -/
theorem DeserializeUTXOTx_chain_drops_last (P : Proto) (fuel : Nat) (d : Bytes)
    (version : String) (es : List UtxoPb)
    (hv : version ≠ "v0.3.0") (hc : EncodesChain P d es) (hf : es.length ≤ fuel) :
    DeserializeUTXOTx P fuel d version
        = some (none, { Key := (es.dropLast.map FromProto).map oldKey,
                        UTXO := es.dropLast.map FromProto })
      ∧ (es.dropLast.map FromProto).length = es.length - 1 := by
  cases es with
  | nil => exact absurd hc (by simp [EncodesChain])
  | cons e rest =>
    obtain ⟨h1, h2⟩ := hc
    refine ⟨?_, by simp⟩
    simp only [DeserializeUTXOTx, if_neg hv, h1]
    rw [decodeChain_of_chain P rest fuel e _ h2 (by simpa using hf), foldl_PutUtxo_old]
    simp [NewUTXOTxOld]

/-- C1 (failing input): the two-entry value `sampleChain2` decodes without
error to one recorded entry, the first; the final entry is not recorded. -/
theorem DeserializeUTXOTx_two_entries_yield_one :
    EncodesChain sampleProto sampleChain2 [sampleEntryA, sampleEntryB]
      ∧ DeserializeUTXOTx sampleProto 2 sampleChain2 "v0.4.0"
          = some (none, { Key := [oldKey (FromProto sampleEntryA)],
                          UTXO := [FromProto sampleEntryA] }) := by
  have hc : EncodesChain sampleProto sampleChain2 [sampleEntryA, sampleEntryB] := by
    refine ⟨by decide, [1, 7, 1, 171, 2, 3, 4, 1, 0, 0], rfl, by decide, rfl⟩
  exact ⟨hc, (DeserializeUTXOTx_chain_drops_last sampleProto 2 sampleChain2 "v0.4.0"
    [sampleEntryA, sampleEntryB] (by decide) hc (by decide)).1⟩

/-! ### AddUtxos -/

theorem foldl_PutUtxo_new (l : List UTXO) (acc : UTXOTxNew) :
    l.foldl (fun t u => t.PutUtxo u) acc
      = { Key := acc.Key ++ l.map GetUTXOKey, UTXO := acc.UTXO ++ l } := by
  induction l generalizing acc with
  | nil => simp
  | cons u rest ih =>
    rw [List.foldl_cons, ih]
    simp [UTXOTxNew.PutUtxo]

theorem buildNew_eq (recs : List UTXO) :
    buildNew recs = { Key := recs.map GetUTXOKey, UTXO := recs } := by
  simp [buildNew, foldl_PutUtxo_new, NewUTXOTxNew]

theorem GetUTXOKey_threaded (last : Bytes) (us : List UTXO) :
    (threaded last us).map GetUTXOKey = us.map GetUTXOKey := by
  induction us generalizing last with
  | nil => rfl
  | cons u rest ih => simp [threaded, ih, GetUTXOKey]

theorem threaded_length (last : Bytes) (us : List UTXO) :
    (threaded last us).length = us.length := by
  induction us generalizing last with
  | nil => rfl
  | cons u rest ih => simp [threaded, ih]

theorem getLastD_cons_eq (a d : Bytes) (l : List Bytes) :
    (a :: l).getLastD d = l.getLastD a := by
  cases l with
  | nil => rfl
  | cons b m => simp [List.getLastD, List.getLast_cons]

theorem addLoop_ok (P : Proto) (us : List UTXO) :
    ∀ (db db' : DB) (last last' : Bytes),
      addLoop P db last (List.zip (us.map GetUTXOKey) us) = (none, db', last') →
      (us.map GetUTXOKey).Nodup →
      (∀ w ∈ threaded last us, ∃ raw, P.marshalNew w = some raw
          ∧ db'.Get (GetUTXOKey w) = some raw)
        ∧ (∀ k, k ∉ us.map GetUTXOKey → db'.Get k = db.Get k)
        ∧ last' = (us.map GetUTXOKey).getLastD last := by
  induction us with
  | nil =>
    intro db db' last last' h _
    simp [addLoop] at h
    obtain ⟨rfl, rfl⟩ := h
    simp [threaded]
  | cons u rest ih =>
    intro db db' last last' h hnd
    simp only [List.map_cons, List.zip_cons_cons, addLoop, putUTXOToDB, Str2bytes] at h
    rw [List.map_cons, List.nodup_cons] at hnd
    cases hm : P.marshalNew { u with NextUtxoKey := last } with
    | none => simp [hm] at h
    | some raw =>
      simp only [hm] at h
      have hk : GetUTXOKey { u with NextUtxoKey := last } = GetUTXOKey u := rfl
      rw [hk] at h
      rcases hp : db.Put (GetUTXOKey u) raw with ⟨e, db1⟩
      rw [hp] at h
      cases e with
      | some err => simp at h
      | none =>
        simp only at h
        obtain ⟨h1, h2, h3⟩ := ih db1 db' (GetUTXOKey u) last' h hnd.2
        refine ⟨?_, ?_, ?_⟩
        · intro w hw
          simp only [threaded, List.mem_cons] at hw
          rcases hw with rfl | hw
          · refine ⟨raw, hm, ?_⟩
            rw [hk, h2 _ hnd.1]
            exact DB.Put_ok_same db db1 _ _ hp
          · exact h1 w hw
        · intro k hk'
          simp only [List.map_cons, List.mem_cons, not_or] at hk'
          rw [h2 k hk'.2]
          exact DB.Put_ok_ne db db1 _ _ k hp hk'.1
        · rw [h3, List.map_cons, getLastD_cons_eq]

theorem AddUtxos_ok (P : Proto) (db db' : DB) (recs : List UTXO) (pubkey : Bytes)
    (h : AddUtxos P db (buildNew recs) pubkey = Run.returned (none, db'))
    (hnd : (recs.map GetUTXOKey).Nodup) (hp : pubkey ∉ recs.map GetUTXOKey) :
    (∀ w ∈ threaded [] recs, ∃ raw, P.marshalNew w = some raw
        ∧ db'.Get (GetUTXOKey w) = some raw)
      ∧ db'.Get pubkey = some ((recs.map GetUTXOKey).getLastD [])
      ∧ (∀ k, k ≠ pubkey → k ∉ recs.map GetUTXOKey → db'.Get k = db.Get k) := by
  rw [buildNew_eq] at h
  simp only [AddUtxos, List.length_map, ne_eq, not_true_eq_false, if_false] at h
  rcases hl : addLoop P db [] (List.zip (recs.map GetUTXOKey) recs) with ⟨e, db1, last'⟩
  rw [hl] at h
  cases e with
  | some err => simp at h
  | none =>
    simp only [putLastUTXOKeyToDB, Str2bytes, Run.returned.injEq] at h
    obtain ⟨h1, h2, h3⟩ := addLoop_ok P recs db db1 [] last' hl hnd
    subst h3
    refine ⟨?_, DB.Put_ok_same db1 db' _ _ h, ?_⟩
    · intro w hw
      obtain ⟨raw, hr1, hr2⟩ := h1 w hw
      refine ⟨raw, hr1, ?_⟩
      have hmem : GetUTXOKey w ∈ recs.map GetUTXOKey := by
        rw [← GetUTXOKey_threaded [] recs]
        exact List.mem_map_of_mem _ hw
      have hne : GetUTXOKey w ≠ pubkey := fun e => hp (e ▸ hmem)
      rw [DB.Put_ok_ne db1 db' _ _ _ h hne]
      exact hr2
    · intro k hk1 hk2
      rw [DB.Put_ok_ne db1 db' _ _ _ h hk1]
      exact h2 k hk2

theorem threaded_get (us : List UTXO) :
    ∀ (last : Bytes) (i : Nat) (hi : i < us.length),
      (threaded last us).get ⟨i, by rw [threaded_length]; exact hi⟩
        = { us.get ⟨i, hi⟩ with
            NextUtxoKey := if i = 0 then last else (us.map GetUTXOKey).getD (i - 1) [] } := by
  induction us with
  | nil => intro last i hi; simp at hi
  | cons u rest ih =>
    intro last i hi
    cases i with
    | zero => simp [threaded]
    | succ j =>
      have hj : j < rest.length := by simpa using hi
      have := ih (GetUTXOKey u) j hj
      simp only [threaded, List.get_eq_getElem, List.getElem_cons_succ] at this ⊢
      rw [this]
      cases j with
      | zero => simp
      | succ m => simp

/-- C2 (amended): for every store, owner string and `UTXOTxNew` built by
`PutUtxo` from `n >= 1` records with pairwise distinct keys, none of which is
the owner string, a successful `AddUtxos` leaves record `i` stored under
`Key[i]`, with an empty link for `i = 0` and the link `Key[i-1]` for `i > 0`,
and the owner entry holding `Key[n-1]`. -/
theorem AddUtxos_writes_chain (P : Proto) (db db' : DB) (recs : List UTXO) (pubkey : Bytes)
    (hn : 1 ≤ recs.length) (hnd : (recs.map GetUTXOKey).Nodup)
    (hp : pubkey ∉ recs.map GetUTXOKey)
    (h : AddUtxos P db (buildNew recs) pubkey = Run.returned (none, db')) :
    AddUtxosPost P db' pubkey recs := by
  obtain ⟨h1, h2, _⟩ := AddUtxos_ok P db db' recs pubkey h hnd hp
  refine ⟨?_, ?_⟩
  · intro i hi
    have hmem : (threaded [] recs).get ⟨i, by rw [threaded_length]; exact hi⟩
        ∈ threaded [] recs := List.get_mem _ _ _
    rw [threaded_get recs [] i hi] at hmem
    exact h1 _ hmem
  · rw [Str2bytes, h2]
    cases hr : recs.map GetUTXOKey with
    | nil => simp at hr; subst hr; simp at hn
    | cons a l => simp [List.getLastD, List.getLast?_eq_getLast]

/-- C2 (witness): one record written to an empty database for the owner
string `ab`. -/
theorem AddUtxos_writes_chain_witness :
    AddUtxosPost sampleProto
      { kv := [([97, 98], [116, 95, 48]), ([116, 95, 48], [5, 1, 171, 0, 1, 116, 0, 0, 0, 0])],
        faults := [] }
      [97, 98] [sampleRecT] :=
  AddUtxos_writes_chain sampleProto emptyDB _ [sampleRecT] [97, 98] (by decide) (by decide)
    (by decide) (by decide)

/-- C2 (counterexample): when the owner string is the key of a record, here
`t_0`, the owner entry overwrites that record, so the record is not stored
under its key although every put succeeded. -/
theorem AddUtxos_owner_key_clash :
    1 ≤ [sampleRecT].length ∧ ([sampleRecT].map GetUTXOKey).Nodup
      ∧ AddUtxos sampleProto emptyDB (buildNew [sampleRecT]) [116, 95, 48]
          = Run.returned (none, { kv := [([116, 95, 48], [116, 95, 48])], faults := [] })
      ∧ ¬ AddUtxosPost sampleProto { kv := [([116, 95, 48], [116, 95, 48])], faults := [] }
          [116, 95, 48] [sampleRecT] := by
  refine ⟨by decide, by decide, by decide, ?_⟩
  intro h
  obtain ⟨raw, h1, h2⟩ := h.1 0 (by decide)
  revert h1 h2
  simp only [List.get_eq_getElem, List.getElem_cons_zero, if_true]
  intro h1 h2
  have e1 : raw = [5, 1, 171, 0, 1, 116, 0, 0, 0, 0] := by
    have : sampleProto.marshalNew { sampleRecT with NextUtxoKey := [] }
        = some [5, 1, 171, 0, 1, 116, 0, 0, 0, 0] := by decide
    rw [this] at h1
    exact (Option.some.inj h1).symm
  have e2 : raw = [116, 95, 48] := by
    have : DB.Get { kv := [([116, 95, 48], [116, 95, 48])], faults := [] }
        (GetUTXOKey sampleRecT) = some [116, 95, 48] := by decide
    rw [this] at h2
    exact (Option.some.inj h2).symm
  rw [e1] at e2
  exact absurd e2 (by decide)

/-! ### Validation -/

theorem validLoop_true_iff (key : Bytes) (us : List OldUTXO) :
    validLoop (hexEncode key) us = true ↔ ∀ u ∈ us, u.PubKeyHash = key ∧ u.Txid ≠ [] := by
  induction us with
  | nil => simp [validLoop]
  | cons u rest ih =>
    simp only [validLoop, List.mem_cons, forall_eq_or_imp]
    by_cases h1 : hexEncode u.PubKeyHash = hexEncode key
    · have e1 : u.PubKeyHash = key := hexEncode_inj _ _ h1
      by_cases h2 : u.Txid.length = 0
      · have e2 : u.Txid = [] := List.length_eq_zero.mp h2
        simp [h1, h2, e2]
      · have e2 : u.Txid ≠ [] := fun e => h2 (by simp [e])
        simp [h1, h2, e1, e2, ih]
    · have e1 : u.PubKeyHash ≠ key := fun e => h1 (by rw [e])
      simp [h1, e1]

/-- C4: for a store key and a decoded legacy chain whose `Key` and `UTXO` lists
have equal length, `isValidUtxotx` returns true exactly when every entry's
owner hash is the store key and every entry's transaction id is non-empty, and
returns false exactly when some entry has another owner hash or an empty
transaction id. -/
theorem isValidUtxotx_iff (key : Bytes) (utxotxold : UTXOTxOld)
    (hlen : utxotxold.Key.length = utxotxold.UTXO.length) :
    (isValidUtxotx key utxotxold = some true
        ↔ ∀ u ∈ utxotxold.UTXO, u.PubKeyHash = key ∧ u.Txid ≠ [])
      ∧ (isValidUtxotx key utxotxold = some false
        ↔ ∃ u ∈ utxotxold.UTXO, u.PubKeyHash ≠ key ∨ u.Txid = []) := by
  have hv := validLoop_true_iff key utxotxold.UTXO
  simp only [isValidUtxotx, hlen, ne_eq, not_true_eq_false, if_false, PubKeyHashString,
    Option.some.injEq]
  refine ⟨hv, ?_⟩
  rw [← Bool.not_eq_true, hv]
  push_neg
  constructor
  · rintro ⟨u, hu, h⟩
    by_cases e : u.PubKeyHash = key
    · exact ⟨u, hu, Or.inr (h e)⟩
    · exact ⟨u, hu, Or.inl e⟩
  · rintro ⟨u, hu, h⟩
    refine ⟨u, hu, fun e => ?_⟩
    rcases h with h | h
    · exact absurd e h
    · exact h

/-- C4 (witness): for the store key `[171]` and the one-entry chain decoded from
`sampleEntryA`, `isValidUtxotx` returns true exactly when the entry is owned
by `[171]` and has a non-empty transaction id. -/
theorem isValidUtxotx_iff_witness :
    isValidUtxotx [171] { Key := [oldKey (FromProto sampleEntryA)],
                          UTXO := [FromProto sampleEntryA] } = some true
      ↔ ∀ u ∈ [FromProto sampleEntryA], u.PubKeyHash = [171] ∧ u.Txid ≠ [] :=
  (isValidUtxotx_iff [171] { Key := [oldKey (FromProto sampleEntryA)],
                             UTXO := [FromProto sampleEntryA] } rfl).1

/-! ### Walking a written chain -/

theorem underscore_mem_GetUTXOKey (u : UTXO) : 95 ∈ GetUTXOKey u := by
  simp [GetUTXOKey]

theorem GetUTXOKey_ne_nil (u : UTXO) : GetUTXOKey u ≠ [] := by
  simp [GetUTXOKey]

theorem hexEncode_ne_GetUTXOKey (K : Bytes) (u : UTXO) : hexEncode K ≠ GetUTXOKey u := by
  intro e
  exact underscore_not_mem_hexEncode K (e ▸ underscore_mem_GetUTXOKey u)

theorem threaded_append (vs : List UTXO) (u : UTXO) :
    ∀ last : Bytes, threaded last (vs ++ [u])
      = threaded last vs ++ [{ u with NextUtxoKey := (vs.map GetUTXOKey).getLastD last }] := by
  induction vs with
  | nil => intro last; rfl
  | cons v rest ih =>
    intro last
    have e : (v :: rest) ++ [u] = v :: (rest ++ [u]) := rfl
    rw [e, threaded, ih, threaded, List.map_cons, getLastD_cons_eq]
    rfl

theorem getLastD_map_append (vs : List UTXO) (u : UTXO) (d : Bytes) :
    ((vs ++ [u]).map GetUTXOKey).getLastD d = GetUTXOKey u := by
  induction vs generalizing d with
  | nil => rfl
  | cons v rest ih =>
    have e : (v :: rest) ++ [u] = v :: (rest ++ [u]) := rfl
    rw [e, List.map_cons, getLastD_cons_eq, ih]

theorem getLastD_mem_of_ne_nil (l : List Bytes) (d : Bytes) (h : l ≠ []) :
    l.getLastD d ∈ l := by
  cases l with
  | nil => exact absurd rfl h
  | cons a m =>
    simp only [List.getLastD]
    exact List.getLast_mem _

theorem walk_threaded (P : Proto) (db' : DB) (hrt : P.RoundTrip) (vs : List UTXO) :
    vs ≠ [] →
    (∀ w ∈ threaded [] vs, ∃ raw, P.marshalNew w = some raw
        ∧ db'.Get (GetUTXOKey w) = some raw) →
    (vs.map GetUTXOKey).Nodup →
    ∀ (fuel : Nat) (visited : List Bytes), vs.length ≤ fuel →
      (∀ k ∈ visited, k ∉ vs.map GetUTXOKey) →
      walk P db' fuel ((vs.map GetUTXOKey).getLastD []) visited
        = some (threaded [] vs).reverse := by
  induction vs using List.reverseRecOn with
  | nil => intro h; exact absurd rfl h
  | append_singleton vs' u ih =>
    intro _ hst hnd fuel visited hf hvis
    obtain ⟨f, rfl⟩ : ∃ f, fuel = f + 1 := ⟨fuel - 1, by simp at hf; omega⟩
    have hf' : vs'.length ≤ f := by simp at hf; omega
    rw [getLastD_map_append, threaded_append]
    rw [threaded_append] at hst
    have hu := hst { u with NextUtxoKey := (vs'.map GetUTXOKey).getLastD [] } (by simp)
    obtain ⟨raw, hm, hg⟩ := hu
    have hk : GetUTXOKey { u with NextUtxoKey := (vs'.map GetUTXOKey).getLastD [] }
        = GetUTXOKey u := rfl
    rw [hk] at hg
    have hnotin : GetUTXOKey u ∉ visited := by
      intro hin
      exact hvis _ hin (by simp)
    rw [List.map_append, List.nodup_append] at hnd
    obtain ⟨hnd1, _, hdisj⟩ := hnd
    have hunot : GetUTXOKey u ∉ vs'.map GetUTXOKey := by
      intro hin
      exact hdisj hin (by simp)
    simp only [walk, hnotin, if_false, hg, hrt _ _ hm]
    by_cases hvs : vs' = []
    · subst hvs
      simp [threaded]
    · have hmem := getLastD_mem_of_ne_nil (vs'.map GetUTXOKey) [] (by simpa using hvs)
      have hne : (vs'.map GetUTXOKey).getLastD [] ≠ [] := by
        obtain ⟨v, _, hv⟩ := List.mem_map.mp hmem
        rw [← hv]
        exact GetUTXOKey_ne_nil v
      rw [if_neg hne]
      have hst' : ∀ w ∈ threaded [] vs', ∃ raw, P.marshalNew w = some raw
          ∧ db'.Get (GetUTXOKey w) = some raw :=
        fun w hw => hst w (List.mem_append_left _ hw)
      have hvis' : ∀ k ∈ GetUTXOKey u :: visited, k ∉ vs'.map GetUTXOKey := by
        intro k hk'
        rcases List.mem_cons.mp hk' with rfl | hk'
        · exact hunot
        · intro hin
          exact hvis k hk' (by simp only [List.map_append, List.mem_append]; exact Or.inl hin)
      rw [ih hvs hst' hnd1 f _ hf' hvis']
      simp

theorem traverse_after_AddUtxos (P : Proto) (hrt : P.RoundTrip) (db db' : DB)
    (recs : List UTXO) (K : Bytes) (fuel : Nat)
    (hnd : (recs.map GetUTXOKey).Nodup) (hf : recs.length ≤ fuel)
    (h : AddUtxos P db (buildNew recs) (PubKeyHashString K) = Run.returned (none, db')) :
    traverse P db' fuel (PubKeyHashString K) = some (threaded [] recs).reverse := by
  have hp : PubKeyHashString K ∉ recs.map GetUTXOKey := by
    intro hin
    obtain ⟨v, _, hv⟩ := List.mem_map.mp hin
    exact hexEncode_ne_GetUTXOKey K v hv.symm
  obtain ⟨h1, h2, _⟩ := AddUtxos_ok P db db' recs _ h hnd hp
  simp only [traverse, Str2bytes, h2]
  by_cases hr : recs = []
  · subst hr
    simp [threaded, List.getLastD]
  · have hmem := getLastD_mem_of_ne_nil (recs.map GetUTXOKey) [] (by simpa using hr)
    have hne : (recs.map GetUTXOKey).getLastD [] ≠ [] := by
      obtain ⟨v, _, hv⟩ := List.mem_map.mp hmem
      rw [← hv]
      exact GetUTXOKey_ne_nil v
    rw [if_neg hne]
    exact walk_threaded P db' hrt recs hr h1 hnd fuel [] hf (by simp)

/-! ### The sample codec decodes what it encodes -/

theorem takeField_length_cons (l rest : Bytes) :
    takeField (l.length :: (l ++ rest)) = some (l, rest) := by
  simp [takeField]

theorem decInt_encInt (i : Int) : decInt (if i < 0 then 1 else 0) i.natAbs = i := by
  by_cases h : i < 0
  · simp only [decInt, h, if_true]
    omega
  · simp only [decInt, h, if_false]
    have : ¬ (0 : Nat) = 1 := by decide
    rw [if_neg this]
    omega

theorem sampleProto_roundTrip : sampleProto.RoundTrip := by
  intro u raw h
  simp only [sampleProto, sampleMarshalNew, Option.some.injEq] at h
  subst h
  simp only [sampleProto, sampleUnmarshalNew, encInt, List.cons_append, List.append_assoc,
    List.nil_append, takeField_length_cons, decInt_encInt]

/-! ### Conversion followed by AddUtxos -/

theorem buildOld_eq (es : List OldUTXO) :
    buildOld es = { Key := es.map oldKey, UTXO := es } := by
  simp [buildOld, foldl_PutUtxo_old, NewUTXOTxOld]

theorem ConvertUtxotx_buildOld (es : List OldUTXO) :
    ConvertUtxotx (buildOld es) = some (buildNew (es.reverse.map ConvertUtxo)) := by
  rw [buildOld_eq]
  simp only [ConvertUtxotx, List.length_map, ne_eq, not_true_eq_false, if_false, buildNew,
    List.foldl_map]

theorem threaded_strip (l : List UTXO) :
    ∀ last : Bytes, (threaded last l).map (fun u => { u with NextUtxoKey := [] })
      = l.map (fun u => { u with NextUtxoKey := [] }) := by
  induction l with
  | nil => intro last; rfl
  | cons u rest ih => intro last; simp [threaded, ih]

theorem traverse_converted (P : Proto) (hrt : P.RoundTrip) (db db' : DB) (K : Bytes)
    (es : List OldUTXO) (newtx : UTXOTxNew) (fuel : Nat)
    (hnd : (buildOld es).Key.Nodup)
    (hconv : ConvertUtxotx (buildOld es) = some newtx)
    (hadd : AddUtxos P db newtx (PubKeyHashString K) = Run.returned (none, db'))
    (hf : es.length ≤ fuel) :
    ∃ visited, traverse P db' fuel (PubKeyHashString K) = some visited
      ∧ visited.map (fun u => { u with NextUtxoKey := [] }) = es.map ConvertUtxo := by
  rw [ConvertUtxotx_buildOld, Option.some.injEq] at hconv
  subst hconv
  rw [buildOld_eq] at hnd
  have hkeys : (es.reverse.map ConvertUtxo).map GetUTXOKey = (es.map oldKey).reverse := by
    rw [List.map_map, List.map_reverse]
    rfl
  have hnd' : ((es.reverse.map ConvertUtxo).map GetUTXOKey).Nodup := by
    rw [hkeys]
    exact List.nodup_reverse.mpr hnd
  refine ⟨_, traverse_after_AddUtxos P hrt db db' _ K fuel hnd' (by simpa using hf) hadd, ?_⟩
  rw [List.map_reverse, threaded_strip, List.map_map, List.map_reverse, List.reverse_reverse]
  apply List.map_congr_left
  intro e _
  rfl

/-- C5: for every legacy chain decoded as the entries `es` with pairwise
distinct UTXO keys, after `ConvertUtxotx` and a successful `AddUtxos` the
traversal from the owner's head pointer visits exactly `es.length` records and
the `k`-th visited record has the value, owner hash, contract payload, source
transaction id, output index and kind of the `k`-th decoded entry. -/
theorem migrated_chain_keeps_decode_order (P : Proto) (hrt : P.RoundTrip) (db db' : DB)
    (K : Bytes) (es : List OldUTXO) (newtx : UTXOTxNew) (fuel : Nat)
    (hnd : (buildOld es).Key.Nodup)
    (hconv : ConvertUtxotx (buildOld es) = some newtx)
    (hadd : AddUtxos P db newtx (PubKeyHashString K) = Run.returned (none, db'))
    (hf : es.length ≤ fuel) :
    ∃ visited, traverse P db' fuel (PubKeyHashString K) = some visited
      ∧ visited.length = es.length
      ∧ ∀ (k : Nat) (hk : k < es.length), ∃ r, visited[k]? = some r
          ∧ r.Value = (es.get ⟨k, hk⟩).Value
          ∧ r.PubKeyHash = (es.get ⟨k, hk⟩).PubKeyHash
          ∧ r.Contract = (es.get ⟨k, hk⟩).Contract
          ∧ r.Txid = (es.get ⟨k, hk⟩).Txid
          ∧ r.TxIndex = (es.get ⟨k, hk⟩).TxIndex
          ∧ r.UtxoType = (es.get ⟨k, hk⟩).UtxoType := by
  obtain ⟨visited, h1, h2⟩ := traverse_converted P hrt db db' K es newtx fuel hnd hconv hadd hf
  have hlen : visited.length = es.length := by
    have := congrArg List.length h2
    simpa using this
  refine ⟨visited, h1, hlen, ?_⟩
  intro k hk
  have hk' : k < visited.length := hlen ▸ hk
  refine ⟨visited[k], List.getElem?_eq_getElem hk', ?_⟩
  have h3 : (visited.map (fun u => { u with NextUtxoKey := [] }))[k]?
      = (es.map ConvertUtxo)[k]? := by rw [h2]
  rw [List.getElem?_map, List.getElem?_map, List.getElem?_eq_getElem hk',
    List.getElem?_eq_getElem hk] at h3
  simp only [Option.map_some', Option.some.injEq] at h3
  rw [List.get_eq_getElem]
  have hv := congrArg UTXO.Value h3
  have hp := congrArg UTXO.PubKeyHash h3
  have hc := congrArg UTXO.Contract h3
  have ht := congrArg UTXO.Txid h3
  have hi := congrArg UTXO.TxIndex h3
  have hu := congrArg UTXO.UtxoType h3
  exact ⟨hv, hp, hc, ht, hi, hu⟩

theorem isValidUtxotx_buildOld_true (K : Bytes) (es : List OldUTXO)
    (h : isValidUtxotx K (buildOld es) = some true) :
    ∀ e ∈ es, e.PubKeyHash = K ∧ e.Txid ≠ [] := by
  rw [buildOld_eq] at h
  simp only [isValidUtxotx, List.length_map, ne_eq, not_true_eq_false, if_false,
    PubKeyHashString, Option.some.injEq] at h
  exact (validLoop_true_iff K es).mp h

/-- C5 (witness): the chain `[sampleOldA, sampleOldB]` of the owner `[171]`,
migrated into an empty database, is traversed as two records. -/
theorem migrated_chain_keeps_decode_order_witness :
    ∃ visited, traverse sampleProto sampleMigratedDB 2 (PubKeyHashString [171]) = some visited
      ∧ visited.length = 2 := by
  obtain ⟨visited, h1, h2, _⟩ := migrated_chain_keeps_decode_order sampleProto
    sampleProto_roundTrip emptyDB sampleMigratedDB [171] [sampleOldA, sampleOldB]
    (buildNew [ConvertUtxo sampleOldB, ConvertUtxo sampleOldA]) 2
    (by decide) (by decide) (by decide) (by decide)
  exact ⟨visited, h1, h2⟩

/-- C3 (amended): for every decoded legacy chain with pairwise distinct UTXO
keys that passes `isValidUtxotx` for its store key, after `ConvertUtxotx` and a
successful `AddUtxos` the owner's chain is well-formed: the walk from the head
pointer meets no key twice, ends at a record with an empty link, and every
visited record has the owner hash given by the store key. -/
theorem migrated_chain_well_formed (P : Proto) (hrt : P.RoundTrip) (db db' : DB)
    (K : Bytes) (es : List OldUTXO) (newtx : UTXOTxNew)
    (hnd : (buildOld es).Key.Nodup)
    (hvalid : isValidUtxotx K (buildOld es) = some true)
    (hconv : ConvertUtxotx (buildOld es) = some newtx)
    (hadd : AddUtxos P db newtx (PubKeyHashString K) = Run.returned (none, db')) :
    ChainWellFormed P db' (PubKeyHashString K) K := by
  obtain ⟨visited, h1, h2⟩ :=
    traverse_converted P hrt db db' K es newtx es.length hnd hconv hadd le_rfl
  have hown : ∀ e ∈ es, e.PubKeyHash = K ∧ e.Txid ≠ [] :=
    isValidUtxotx_buildOld_true K es hvalid
  have hkeys : visited.map GetUTXOKey = es.map oldKey := by
    have e1 : visited.map GetUTXOKey
        = (visited.map (fun u => { u with NextUtxoKey := [] })).map GetUTXOKey := by
      rw [List.map_map]
      rfl
    rw [e1, h2, List.map_map]
    rfl
  refine ⟨es.length, visited, h1, ?_, ?_⟩
  · rw [hkeys]
    rw [buildOld_eq] at hnd
    exact hnd
  · intro u hu
    have hm : ({ u with NextUtxoKey := [] } : UTXO) ∈ es.map ConvertUtxo := by
      rw [← h2]
      exact List.mem_map_of_mem (fun u : UTXO => ({ u with NextUtxoKey := [] } : UTXO)) hu
    obtain ⟨e, he, hce⟩ := List.mem_map.mp hm
    have := congrArg UTXO.PubKeyHash hce
    simp only [ConvertUtxo] at this
    rw [← this]
    exact (hown e he).1

/-- C3 (witness): the migrated chain `[sampleOldA, sampleOldB]` of the owner
`[171]` is well-formed. -/
theorem migrated_chain_well_formed_witness :
    ChainWellFormed sampleProto sampleMigratedDB (PubKeyHashString [171]) [171] :=
  migrated_chain_well_formed sampleProto sampleProto_roundTrip emptyDB sampleMigratedDB [171]
    [sampleOldA, sampleOldB] (buildNew [ConvertUtxo sampleOldB, ConvertUtxo sampleOldA])
    (by decide) (by decide) (by decide) (by decide)

/-- C3 (counterexample): a legacy chain with two entries of the same
transaction id and output index passes `isValidUtxotx`, is converted and added
without error, and leaves a chain whose only record links to its own key, so
the walk from the head pointer meets that key again and never ends. -/
theorem duplicate_entries_make_a_cycle :
    isValidUtxotx [171] (buildOld [sampleOldA, sampleOldA]) = some true
      ∧ ConvertUtxotx (buildOld [sampleOldA, sampleOldA])
          = some (buildNew [ConvertUtxo sampleOldA, ConvertUtxo sampleOldA])
      ∧ AddUtxos sampleProto emptyDB (buildNew [ConvertUtxo sampleOldA, ConvertUtxo sampleOldA])
          (PubKeyHashString [171]) = Run.returned (none, sampleDuplicateDB)
      ∧ sampleProto.RoundTrip
      ∧ ¬ ChainWellFormed sampleProto sampleDuplicateDB (PubKeyHashString [171]) [171] := by
  refine ⟨by decide, by decide, by decide, sampleProto_roundTrip, ?_⟩
  rintro ⟨fuel, us, h, _⟩
  have hnone : traverse sampleProto sampleDuplicateDB fuel (PubKeyHashString [171]) = none := by
    match fuel with
    | 0 => rfl
    | 1 => rfl
    | n + 2 => rfl
  rw [hnone] at h
  exact absurd h (by simp)

/-! ### Where the head pointer is stored -/

theorem hexEncode_length (K : Bytes) : (hexEncode K).length = 2 * K.length := by
  induction K with
  | nil => rfl
  | cons x xs ih => simp [hexEncode, ih]; omega

theorem hexEncode_ne_self (K : Bytes) (h : K ≠ []) : K ≠ hexEncode K := by
  intro e
  have hl := hexEncode_length K
  rw [← e] at hl
  have : K.length ≠ 0 := fun z => h (List.length_eq_zero.mp z)
  omega

theorem getLastD_append_singleton (l : List Bytes) (a : Bytes) :
    ∀ d : Bytes, (l ++ [a]).getLastD d = a := by
  induction l with
  | nil => intro d; rfl
  | cons b m ih =>
    intro d
    have e : (b :: m) ++ [a] = b :: (m ++ [a]) := rfl
    rw [e, getLastD_cons_eq, ih]

theorem addLoop_frame (P : Proto) (us : List UTXO) :
    ∀ (db db' : DB) (last last' : Bytes),
      addLoop P db last (List.zip (us.map GetUTXOKey) us) = (none, db', last') →
      (∀ k, k ∉ us.map GetUTXOKey → db'.Get k = db.Get k)
        ∧ last' = (us.map GetUTXOKey).getLastD last := by
  induction us with
  | nil =>
    intro db db' last last' h
    simp [addLoop] at h
    obtain ⟨rfl, rfl⟩ := h
    simp
  | cons u rest ih =>
    intro db db' last last' h
    simp only [List.map_cons, List.zip_cons_cons, addLoop, putUTXOToDB, Str2bytes] at h
    cases hm : P.marshalNew { u with NextUtxoKey := last } with
    | none => simp [hm] at h
    | some raw =>
      simp only [hm] at h
      have hk : GetUTXOKey { u with NextUtxoKey := last } = GetUTXOKey u := rfl
      rw [hk] at h
      rcases hp : db.Put (GetUTXOKey u) raw with ⟨e, db1⟩
      rw [hp] at h
      cases e with
      | some err => simp at h
      | none =>
        simp only at h
        obtain ⟨h2, h3⟩ := ih db1 db' (GetUTXOKey u) last' h
        refine ⟨?_, ?_⟩
        · intro k hk'
          simp only [List.map_cons, List.mem_cons, not_or] at hk'
          rw [h2 k hk'.2]
          exact DB.Put_ok_ne db db1 _ _ k hp hk'.1
        · rw [h3, List.map_cons, getLastD_cons_eq]

theorem AddUtxos_head (P : Proto) (db db' : DB) (recs : List UTXO) (pubkey : Bytes)
    (h : AddUtxos P db (buildNew recs) pubkey = Run.returned (none, db')) :
    db'.Get pubkey = some ((recs.map GetUTXOKey).getLastD [])
      ∧ (∀ k, k ≠ pubkey → k ∉ recs.map GetUTXOKey → db'.Get k = db.Get k) := by
  rw [buildNew_eq] at h
  simp only [AddUtxos, List.length_map, ne_eq, not_true_eq_false, if_false] at h
  rcases hl : addLoop P db [] (List.zip (recs.map GetUTXOKey) recs) with ⟨e, db1, last'⟩
  rw [hl] at h
  cases e with
  | some err => simp at h
  | none =>
    simp only [putLastUTXOKeyToDB, Str2bytes, Run.returned.injEq] at h
    obtain ⟨h2, h3⟩ := addLoop_frame P recs db db1 [] last' hl
    subst h3
    refine ⟨DB.Put_ok_same db1 db' _ _ h, ?_⟩
    intro k hk1 hk2
    rw [DB.Put_ok_ne db1 db' _ _ _ h hk1]
    exact h2 k hk2

/-- C9 (counterexample): the legacy entry of `sampleLegacyDB` is stored under
the raw owner hash `[171]`; discovery collects it, the migration completes, and
afterwards the raw key `[171]` holds nothing: the head pointer is stored under
the two-character string `ab`. -/
theorem head_pointer_not_under_raw_key :
    getOldUtxoIndexFromDB sampleProto 2 true sampleLegacyDB "v0.4.0"
        = some (Run.returned { PublicKey := [PubKeyHashString [171]],
                               OldUTXOTx := [buildOld [sampleOldA]] })
      ∧ ConvertAndSaveUtxoIndexToDB sampleProto true sampleLegacyDB
          { PublicKey := [PubKeyHashString [171]], OldUTXOTx := [buildOld [sampleOldA]] }
        = (Ending.completed, sampleConvertedDB, 1)
      ∧ sampleConvertedDB.Get [171] = none
      ∧ sampleConvertedDB.Get [97, 98] = some (oldKey sampleOldA) := by
  refine ⟨by decide, by decide, by decide, by decide⟩

end Upgrade

namespace Generator

/-! ### Block lookup -/

theorem GetBlockByHeight_missing_height {ι : Type} (E : Env ι) (db : DB) (height : Nat)
    (h : db.Get (E.UintToHex height) = none) :
    GetBlockByHeight E db height = Except.error Err.ErrBlockDoesNotExist := by
  simp [GetBlockByHeight, h]

/-- C8 (what the code does): when the height entry names a hash under which no
block bytes are stored, `GetBlockByHeight` does not fail: it returns the block
that `block.Deserialize` makes of `nil`, with a nil error. -/
theorem GetBlockByHeight_missing_block_no_error {ι : Type} (E : Env ι) (db : DB)
    (height : Nat) (hash : Bytes)
    (h1 : db.Get (E.UintToHex height) = some hash) (h2 : db.Get hash = none) :
    GetBlockByHeight E db height = Except.ok (E.Deserialize []) := by
  simp [GetBlockByHeight, h1, h2]

/-- C8 (failing input): in `sampleDanglingDB` height 0 names the hash `[9]` and
nothing is stored under `[9]`; the lookup returns a block and no error. -/
theorem GetBlockByHeight_missing_block_no_error_witness :
    GetBlockByHeight sampleEnv sampleDanglingDB 0 = Except.ok (sampleEnv.Deserialize []) :=
  GetBlockByHeight_missing_block_no_error sampleEnv sampleDanglingDB 0 [9] (by decide)
    (by decide)

/-! ### DeleteAllUtxosFromNewDb -/

theorem removeLoop_none_present {ι : Type} (E : Env ι) (ks : List Bytes) :
    ∀ (db : DB) (b : Bool), (∀ k ∈ ks, db.Get (Str2bytes k) = none) →
      removeLoop E db b ks = (b, none, db) := by
  induction ks with
  | nil => intro db b _; rfl
  | cons k rest ih =>
    intro db b h
    have hk := h k (List.mem_cons_self _ _)
    simp only [removeLoop, hk]
    exact ih db b (fun k' hk' => h k' (List.mem_cons_of_mem _ hk'))

theorem removeLoop_some_present {ι : Type} (E : Env ι) (ks : List Bytes) :
    ∀ (db : DB) (b : Bool), (∃ k ∈ ks, db.Get (Str2bytes k) ≠ none) →
      (removeLoop E db b ks).1 = false := by
  induction ks with
  | nil => intro db b h; obtain ⟨k, hk, _⟩ := h; simp at hk
  | cons k rest ih =>
    intro db b h
    cases hg : db.Get (Str2bytes k) with
    | none =>
      simp only [removeLoop, hg]
      apply ih
      obtain ⟨k', hk', hne⟩ := h
      rcases List.mem_cons.mp hk' with rfl | hin
      · exact absurd hg hne
      · exact ⟨k', hin, hne⟩
    | some v =>
      simp only [removeLoop, hg]
      rcases hr : E.RemoveUtxos db ((hexDecode k).getD []) k with ⟨e, db1⟩
      cases e with
      | some err => rfl
      | none =>
        simp only
        by_cases hrest : ∃ k' ∈ rest, db1.Get (Str2bytes k') ≠ none
        · exact ih db1 false hrest
        · push_neg at hrest
          rw [removeLoop_none_present E rest db1 false hrest]

/-- C6 (amended): when `DeleteAllUtxosFromNewDb` returns without error, its
boolean result is true if and only if no owner string enumerated from the
block log was present as a key in the store, in which case nothing was deleted
and the store is unchanged; it is false when at least one owner was present
and had its chain removed. -/
theorem DeleteAllUtxosFromNewDb_flag {ι : Type} (E : Env ι) (fuel : Nat) (db db' : DB)
    (owners : List Bytes) (isDeleted : Bool)
    (horder : ∀ (l : List Bytes) (k : Bytes), k ∈ E.rangeOrder l ↔ k ∈ l)
    (henum : enumerateOwners E fuel db = some (Except.ok owners))
    (h : DeleteAllUtxosFromNewDb E fuel db = some (isDeleted, none, db')) :
    (isDeleted = true ↔ ∀ k ∈ owners, db.Get (Str2bytes k) = none)
      ∧ (isDeleted = true → db' = db) := by
  simp only [DeleteAllUtxosFromNewDb, henum, Option.some.injEq] at h
  by_cases hall : ∀ k ∈ E.rangeOrder owners, db.Get (Str2bytes k) = none
  · rw [removeLoop_none_present E _ db true hall] at h
    simp only [Prod.mk.injEq, true_and] at h
    obtain ⟨rfl, rfl⟩ := h
    exact ⟨⟨fun _ k hk => hall k ((horder owners k).mpr hk), fun _ => rfl⟩, fun _ => rfl⟩
  · push_neg at hall
    have hf := removeLoop_some_present E _ db true hall
    rw [h] at hf
    simp only at hf
    subst hf
    refine ⟨⟨fun e => absurd e (by decide), fun hn => ?_⟩, fun e => absurd e (by decide)⟩
    obtain ⟨k, hk, hne⟩ := hall
    exact absurd (hn k ((horder owners k).mp hk)) hne

/-- C6 (witness): in `sampleBareDB` the only enumerated owner string `ab` is not
a key, and the result is true. -/
theorem DeleteAllUtxosFromNewDb_flag_witness :
    (true = true ↔ ∀ k ∈ [([97, 98] : Bytes)], sampleBareDB.Get (Str2bytes k) = none)
      ∧ (true = true → sampleBareDB = sampleBareDB) :=
  DeleteAllUtxosFromNewDb_flag sampleEnv 3 sampleBareDB sampleBareDB [[97, 98]] true
    (fun _ _ => Iff.rfl) rfl (by decide)

/-- C6 (counterexample): in `sampleBlockDB` the enumerated owner string `ab` is a
key of the store and its entry is removed, yet the result is false; in
`sampleBareDB` no owner is present and nothing is deleted, yet the result is
true. -/
theorem DeleteAllUtxosFromNewDb_flag_is_inverted :
    enumerateOwners sampleEnv 3 sampleBlockDB = some (Except.ok [[97, 98]])
      ∧ sampleBlockDB.Get [97, 98] = some [1, 2, 95, 48]
      ∧ (∃ db', DeleteAllUtxosFromNewDb sampleEnv 3 sampleBlockDB = some (false, none, db')
          ∧ db'.Get [97, 98] = none)
      ∧ enumerateOwners sampleEnv 3 sampleBareDB = some (Except.ok [[97, 98]])
      ∧ sampleBareDB.Get [97, 98] = none
      ∧ DeleteAllUtxosFromNewDb sampleEnv 3 sampleBareDB = some (true, none, sampleBareDB) := by
  refine ⟨rfl, by decide, ⟨_, rfl, by decide⟩, rfl, by decide, by decide⟩

/-! ### DeleteAllUtxosFromOldDb -/

theorem delVouts_inv (db0 : DB) (vouts : List TXOutput) :
    ∀ (db : DB) (keyExist : Bool) (looked : List Bytes),
      (∀ k ∈ looked, db.Get k = none) → (∀ k, k ∉ looked → db.Get k = db0.Get k) →
      (delVouts db keyExist looked vouts).err = none →
      (∀ k ∈ (delVouts db keyExist looked vouts).looked,
          (delVouts db keyExist looked vouts).db.Get k = none)
        ∧ (∀ k, k ∉ (delVouts db keyExist looked vouts).looked →
          (delVouts db keyExist looked vouts).db.Get k = db0.Get k) := by
  induction vouts with
  | nil => intro db keyExist looked h1 h2 _; exact ⟨h1, h2⟩
  | cons vout rest ih =>
    intro db keyExist looked h1 h2 herr
    cases hg : db.Get vout.PubKeyHash with
    | none =>
      simp only [delVouts, hg] at herr ⊢
      apply ih db keyExist _ _ _ herr
      · intro k hk
        rcases List.mem_append.mp hk with hk | hk
        · exact h1 k hk
        · rw [List.mem_singleton.mp hk]; exact hg
      · intro k hk
        exact h2 k (fun hin => hk (List.mem_append_left _ hin))
    | some v =>
      rcases hd : db.Del vout.PubKeyHash with ⟨e, db1⟩
      cases e with
      | some err => simp [delVouts, hg, hd] at herr
      | none =>
        simp only [delVouts, hg, hd] at herr ⊢
        apply ih db1 true _ _ _ herr
        · intro k hk
          by_cases hkp : k = vout.PubKeyHash
          · rw [hkp]; exact DB.Del_ok_same db db1 _ hd
          · rw [DB.Del_ok_ne db db1 _ k hd hkp]
            rcases List.mem_append.mp hk with hk | hk
            · exact h1 k hk
            · exact absurd (List.mem_singleton.mp hk) hkp
        · intro k hk
          have hkp : k ≠ vout.PubKeyHash := fun e => hk (by rw [e]; simp)
          rw [DB.Del_ok_ne db db1 _ k hd hkp]
          exact h2 k (fun hin => hk (List.mem_append_left _ hin))

theorem oldDbLoop_inv {ι : Type} (E : Env ι) (tailHeight : Nat) (db0 : DB) (fuel : Nat) :
    ∀ (i : Nat) (db : DB) (keyExist : Bool) (looked : List Bytes) (r : OldDbResult),
      (∀ k ∈ looked, db.Get k = none) → (∀ k, k ∉ looked → db.Get k = db0.Get k) →
      oldDbLoop E tailHeight fuel i db keyExist looked = some r → r.err = none →
      (∀ k ∈ r.looked, r.db.Get k = none) ∧ (∀ k, k ∉ r.looked → r.db.Get k = db0.Get k) := by
  induction fuel with
  | zero => intro i db keyExist looked r _ _ h; simp [oldDbLoop] at h
  | succ f ih =>
    intro i db keyExist looked r h1 h2 h herr
    simp only [oldDbLoop] at h
    split_ifs at h with hi
    · cases hb : GetBlockByHeight E db i with
      | error err =>
        rw [hb] at h
        simp only [Option.some.injEq] at h
        subst h
        simp at herr
      | ok block =>
        rw [hb] at h
        simp only at h
        cases hde : (delVouts db keyExist looked (allVouts block.GetTransactions)).err with
        | some err =>
          rw [hde] at h
          simp only [Option.some.injEq] at h
          subst h
          rw [hde] at herr
          simp at herr
        | none =>
          rw [hde] at h
          simp only at h
          obtain ⟨g1, g2⟩ := delVouts_inv db0 _ db keyExist looked h1 h2 hde
          exact ih _ _ _ _ r g1 g2 h herr
    · simp only [Option.some.injEq] at h
      subst h
      exact ⟨h1, h2⟩

theorem DeleteAllUtxosFromOldDb_looked {ι : Type} (E : Env ι) (fuel : Nat)
    (db : DB) (r : OldDbResult)
    (h : DeleteAllUtxosFromOldDb E fuel db = some r) (herr : r.err = none) :
    (∀ k ∈ r.looked, r.db.Get k = none) ∧ (∀ k, k ∉ r.looked → r.db.Get k = db.Get k) := by
  simp only [DeleteAllUtxosFromOldDb] at h
  cases ht : GetTailBlock E db with
  | error err =>
    rw [ht] at h
    simp only [Option.some.injEq] at h
    subst h
    simp at herr
  | ok tailBlock =>
    rw [ht] at h
    exact oldDbLoop_inv E _ db fuel 0 db false [] r (by simp) (fun _ _ => rfl) h herr

/-- C10 (counterexample): clearing `sampleBlockDB` returns without error and
leaves both the owner's head pointer, stored under the string `ab`, and the
current-schema record stored under its UTXO key. -/
theorem DeleteAllUtxosFromOldDb_keeps_current_records :
    ∃ r, DeleteAllUtxosFromOldDb sampleEnv 3 sampleBlockDB = some r
      ∧ r.err = none
      ∧ r.db.Get (Str2bytes (PubKeyHashString [171])) = some [1, 2, 95, 48]
      ∧ r.db.Get [1, 2, 95, 48] = some [5, 1, 171, 0, 2, 1, 2, 0, 0, 0, 0]
      ∧ Upgrade.isValidUtxoKeyValue Upgrade.sampleProto [1, 2, 95, 48]
          [5, 1, 171, 0, 2, 1, 2, 0, 0, 0, 0] = true :=
  ⟨_, rfl, rfl, by decide, by decide, by decide⟩

/-! ### utxoConvertCmdHandler -/

theorem oldDbLoop_ok_tail {ι : Type} (E : Env ι) (tailHeight : Nat) (fuel : Nat) :
    ∀ (i : Nat) (db : DB) (keyExist : Bool) (looked : List Bytes) (r : OldDbResult),
      i < 2 ^ 64 → oldDbLoop E tailHeight fuel i db keyExist looked = some r → r.err = none →
      tailHeight + 1 < 2 ^ 64 := by
  induction fuel with
  | zero => intro i db keyExist looked r _ h; simp [oldDbLoop] at h
  | succ f ih =>
    intro i db keyExist looked r hi h herr
    simp only [oldDbLoop] at h
    split_ifs at h with hle
    · cases hb : GetBlockByHeight E db i with
      | error err =>
        rw [hb] at h
        simp only [Option.some.injEq] at h
        subst h
        simp at herr
      | ok block =>
        rw [hb] at h
        simp only at h
        cases hde : (delVouts db keyExist looked (allVouts block.GetTransactions)).err with
        | some err =>
          rw [hde] at h
          simp only [Option.some.injEq] at h
          subst h
          rw [hde] at herr
          simp at herr
        | none =>
          rw [hde] at h
          simp only at h
          exact ih _ _ _ _ r (Nat.mod_lt _ (by norm_num)) h herr
    · omega

theorem convertBlocks_initial {ι : Type} (E : Env ι) (db : DB) (endHeight : Nat)
    (hend : endHeight + 1 < 2 ^ 64) (fuel : Nat) :
    ∀ (i : Nat) (idx : ι) (done : List Nat) (err : Option Err) (idx' : ι) (done' : List Nat),
      i ≤ endHeight + 1 →
      convertBlocks E db endHeight fuel i idx done = some (err, idx', done') →
      ∃ m, done' = done ++ List.range' i m ∧ i + m ≤ endHeight + 1
        ∧ (err = none → i + m = endHeight + 1) := by
  induction fuel with
  | zero => intro i idx done err idx' done' _ h; simp [convertBlocks] at h
  | succ f ih =>
    intro i idx done err idx' done' hi h
    simp only [convertBlocks] at h
    split_ifs at h with hle
    · cases hb : GetBlockByHeight E db i with
      | error e =>
        rw [hb] at h
        simp only [Option.some.injEq, Prod.mk.injEq] at h
        obtain ⟨rfl, _, rfl⟩ := h
        exact ⟨0, by simp, by omega, fun e => by simp at e⟩
      | ok block =>
        rw [hb] at h
        simp only at h
        have hmod : (i + 1) % 2 ^ 64 = i + 1 := Nat.mod_eq_of_lt (by omega)
        rw [hmod] at h
        obtain ⟨m, h1, h2, h3⟩ := ih (i + 1) _ _ err idx' done' (by omega) h
        refine ⟨m + 1, ?_, by omega, fun e => by have := h3 e; omega⟩
        rw [h1, List.append_assoc, List.range'_succ]
        rfl
    · simp only [Option.some.injEq, Prod.mk.injEq] at h
      obtain ⟨rfl, _, rfl⟩ := h
      exact ⟨0, by simp, by omega, fun _ => by omega⟩

theorem convertBlocks_total {ι : Type} (E : Env ι) (db : DB) (endHeight : Nat)
    (hend : endHeight + 1 < 2 ^ 64) (n : Nat) :
    ∀ (fuel i : Nat) (idx : ι) (done : List Nat),
      i + n = endHeight + 1 →
      (∀ h, i ≤ h → h ≤ endHeight → db.Get (E.UintToHex h) ≠ none) →
      n + 1 ≤ fuel →
      ∃ idx', convertBlocks E db endHeight fuel i idx done
        = some (none, idx', done ++ List.range' i n) := by
  induction n with
  | zero =>
    intro fuel i idx done hi _ hf
    obtain ⟨f, rfl⟩ : ∃ f, fuel = f + 1 := ⟨fuel - 1, by omega⟩
    have hle : ¬ i ≤ endHeight := by omega
    exact ⟨idx, by simp [convertBlocks, hle]⟩
  | succ n ih =>
    intro fuel i idx done hi hres hf
    obtain ⟨f, rfl⟩ : ∃ f, fuel = f + 1 := ⟨fuel - 1, by omega⟩
    have hle : i ≤ endHeight := by omega
    have hmod : (i + 1) % 2 ^ 64 = i + 1 := Nat.mod_eq_of_lt (by omega)
    have hget := hres i le_rfl hle
    obtain ⟨hash, hh⟩ := Option.ne_none_iff_exists'.mp hget
    have hb : GetBlockByHeight E db i = Except.ok (E.Deserialize ((db.Get hash).getD [])) := by
      simp [GetBlockByHeight, hh]
    obtain ⟨idx', hrec⟩ := ih f (i + 1)
      (E.UpdateUtxos idx (E.Deserialize ((db.Get hash).getD [])).GetTransactions) (done ++ [i])
      (by omega) (fun h h1 h2 => hres h (by omega) h2) (by omega)
    refine ⟨idx', ?_⟩
    simp only [convertBlocks, if_pos hle, hb, hmod, hrec]
    rw [List.append_assoc, List.range'_succ]
    rfl

theorem DeleteAllUtxosFromOldDb_ok_tail {ι : Type} (E : Env ι) (fuel : Nat) (db : DB)
    (tailBlock : Block) (r : OldDbResult) (htail : GetTailBlock E db = Except.ok tailBlock)
    (h : DeleteAllUtxosFromOldDb E fuel db = some r) (herr : r.err = none) :
    tailBlock.GetHeight + 1 < 2 ^ 64 := by
  simp only [DeleteAllUtxosFromOldDb, htail] at h
  exact oldDbLoop_ok_tail E _ fuel 0 db false [] r (by norm_num) h herr

theorem handler_rejected {ι : Type} (E : Env ι) (fuel : Nat) (db : DB)
    (startHeight endHeight eff : Nat) (tailBlock : Block)
    (htail : GetTailBlock E db = Except.ok tailBlock)
    (heff : eff = if endHeight = 0 then tailBlock.GetHeight else endHeight)
    (hrej : startHeight > eff ∨ eff > tailBlock.GetHeight) :
    ∃ e, utxoConvertCmdHandler E fuel true db startHeight endHeight = some (e, db, [])
      ∧ (e = ConvertEnd.startAboveEnd ∨ e = ConvertEnd.endAboveTail) := by
  subst heff
  by_cases h1 : startHeight > (if endHeight = 0 then tailBlock.GetHeight else endHeight)
  · exact ⟨ConvertEnd.startAboveEnd, by simp [utxoConvertCmdHandler, htail, h1], Or.inl rfl⟩
  · have h2 : (if endHeight = 0 then tailBlock.GetHeight else endHeight) > tailBlock.GetHeight :=
      hrej.resolve_left h1
    exact ⟨ConvertEnd.endAboveTail, by simp [utxoConvertCmdHandler, htail, h1, h2], Or.inr rfl⟩

theorem handler_accepted {ι : Type} (E : Env ι) (fuel : Nat) (db : DB)
    (startHeight endHeight eff : Nat) (tailBlock : Block)
    (htail : GetTailBlock E db = Except.ok tailBlock)
    (heff : eff = if endHeight = 0 then tailBlock.GetHeight else endHeight)
    (hacc : ¬ (startHeight > eff ∨ eff > tailBlock.GetHeight)) :
    utxoConvertCmdHandler E fuel true db startHeight endHeight
      = match DeleteAllUtxosFromOldDb E fuel db with
        | none => none
        | some r =>
          match r.err with
          | some _ => some (ConvertEnd.clearFailed, r.db, [])
          | none =>
            match convertBlocks E r.db eff fuel startHeight (E.NewUTXOIndex r.db) [] with
            | none => none
            | some (some _, _, done) => some (ConvertEnd.blockMissing, r.db, done)
            | some (none, utxoIndex, done) =>
              match E.Save utxoIndex r.db with
              | (some _, db') => some (ConvertEnd.saveFailed, db', done)
              | (none, db') => some (ConvertEnd.saved, db', done) := by
  subst heff
  push_neg at hacc
  obtain ⟨h1, h2⟩ := hacc
  have h1' : ¬ startHeight > (if endHeight = 0 then tailBlock.GetHeight else endHeight) := by
    omega
  have h2' : ¬ (if endHeight = 0 then tailBlock.GetHeight else endHeight)
      > tailBlock.GetHeight := by omega
  simp only [utxoConvertCmdHandler, htail, Bool.true_eq_false, if_false, if_neg h1', if_neg h2']

theorem handler_accepted_result {ι : Type} (E : Env ι) (fuel : Nat) (db : DB)
    (startHeight endHeight eff : Nat) (tailBlock : Block)
    (htail : GetTailBlock E db = Except.ok tailBlock)
    (heff : eff = if endHeight = 0 then tailBlock.GetHeight else endHeight)
    (hacc : ¬ (startHeight > eff ∨ eff > tailBlock.GetHeight))
    (e : ConvertEnd) (db' : DB) (done : List Nat)
    (h : utxoConvertCmdHandler E fuel true db startHeight endHeight = some (e, db', done)) :
    e ≠ ConvertEnd.startAboveEnd ∧ e ≠ ConvertEnd.endAboveTail
      ∧ (∃ m, done = List.range' startHeight m ∧ startHeight + m ≤ eff + 1)
      ∧ ((e = ConvertEnd.saved ∨ e = ConvertEnd.saveFailed) →
          done = List.range' startHeight (eff + 1 - startHeight)) := by
  rw [handler_accepted E fuel db startHeight endHeight eff tailBlock htail heff hacc] at h
  push_neg at hacc
  cases hd : DeleteAllUtxosFromOldDb E fuel db with
  | none => rw [hd] at h; simp at h
  | some r =>
    rw [hd] at h
    simp only at h
    cases hre : r.err with
    | some err =>
      rw [hre] at h
      simp only [Option.some.injEq, Prod.mk.injEq] at h
      obtain ⟨rfl, _, rfl⟩ := h
      exact ⟨by decide, by decide, ⟨0, by simp, by omega⟩, fun hh => by rcases hh with hh | hh <;> cases hh⟩
    | none =>
      rw [hre] at h
      simp only at h
      have htl := DeleteAllUtxosFromOldDb_ok_tail E fuel db tailBlock r htail hd hre
      have hend : eff + 1 < 2 ^ 64 := by omega
      cases hc : convertBlocks E r.db eff fuel startHeight (E.NewUTXOIndex r.db) [] with
      | none => rw [hc] at h; simp at h
      | some res =>
        obtain ⟨err, idx', done'⟩ := res
        obtain ⟨m, hm1, hm2, hm3⟩ :=
          convertBlocks_initial E r.db eff hend fuel startHeight _ [] err idx' done' (by omega) hc
        rw [List.nil_append] at hm1
        rw [hc] at h
        cases err with
        | some er =>
          simp only [Option.some.injEq, Prod.mk.injEq] at h
          obtain ⟨rfl, _, rfl⟩ := h
          exact ⟨by decide, by decide, ⟨m, hm1, hm2⟩,
            fun hh => by rcases hh with hh | hh <;> cases hh⟩
        | none =>
          simp only at h
          have hm : m = eff + 1 - startHeight := by have := hm3 rfl; omega
          rcases hs : E.Save idx' r.db with ⟨es, db2⟩
          rw [hs] at h
          cases es with
          | some er =>
            simp only [Option.some.injEq, Prod.mk.injEq] at h
            obtain ⟨rfl, _, rfl⟩ := h
            exact ⟨by decide, by decide, ⟨m, hm1, hm2⟩, fun _ => by rw [hm1, hm]⟩
          | none =>
            simp only [Option.some.injEq, Prod.mk.injEq] at h
            obtain ⟨rfl, _, rfl⟩ := h
            exact ⟨by decide, by decide, ⟨m, hm1, hm2⟩, fun _ => by rw [hm1, hm]⟩

theorem handler_accepted_total {ι : Type} (E : Env ι) (fuel : Nat) (db : DB)
    (startHeight endHeight eff : Nat) (tailBlock : Block)
    (htail : GetTailBlock E db = Except.ok tailBlock)
    (heff : eff = if endHeight = 0 then tailBlock.GetHeight else endHeight)
    (hacc : ¬ (startHeight > eff ∨ eff > tailBlock.GetHeight))
    (r : OldDbResult) (hd : DeleteAllUtxosFromOldDb E fuel db = some r) (hre : r.err = none)
    (hres : ∀ h, startHeight ≤ h → h ≤ eff → r.db.Get (E.UintToHex h) ≠ none)
    (hf : eff + 2 - startHeight ≤ fuel) :
    ∃ e db', utxoConvertCmdHandler E fuel true db startHeight endHeight
        = some (e, db', List.range' startHeight (eff + 1 - startHeight))
      ∧ (e = ConvertEnd.saved ∨ e = ConvertEnd.saveFailed) := by
  rw [handler_accepted E fuel db startHeight endHeight eff tailBlock htail heff hacc]
  push_neg at hacc
  have htl := DeleteAllUtxosFromOldDb_ok_tail E fuel db tailBlock r htail hd hre
  have hend : eff + 1 < 2 ^ 64 := by omega
  obtain ⟨idx', hc⟩ := convertBlocks_total E r.db eff hend (eff + 1 - startHeight) fuel
    startHeight (E.NewUTXOIndex r.db) [] (by omega) hres (by omega)
  rw [List.nil_append] at hc
  simp only [hd, hre, hc]
  rcases hs : E.Save idx' r.db with ⟨es, db2⟩
  cases es with
  | some er => exact ⟨ConvertEnd.saveFailed, db2, rfl, Or.inr rfl⟩
  | none => exact ⟨ConvertEnd.saved, db2, rfl, Or.inl rfl⟩

/-- C7 (amended): with `eff` the tail height when `endHeight` is 0 and
`endHeight` otherwise, the convert operation rejects the range, leaving the
store as it was and processing no height, if `startHeight > eff` or
`eff > tailHeight`, and only then.  Otherwise the heights it processes are
`startHeight, startHeight + 1, ...` in increasing order, never beyond `eff`:
all of them up to `eff` whenever the run reaches the save step, which it does
when the clearing step succeeds and every height of the range has a height
entry, and only a first part of them when the clearing step or a block lookup
fails. -/
theorem utxoConvertCmdHandler_range {ι : Type} (E : Env ι) (fuel : Nat) (db : DB)
    (startHeight endHeight eff : Nat) (tailBlock : Block)
    (htail : GetTailBlock E db = Except.ok tailBlock)
    (heff : eff = if endHeight = 0 then tailBlock.GetHeight else endHeight) :
    ((startHeight > eff ∨ eff > tailBlock.GetHeight) →
        ∃ e, utxoConvertCmdHandler E fuel true db startHeight endHeight = some (e, db, [])
          ∧ (e = ConvertEnd.startAboveEnd ∨ e = ConvertEnd.endAboveTail))
      ∧ (¬ (startHeight > eff ∨ eff > tailBlock.GetHeight) →
        (∀ e db' done,
            utxoConvertCmdHandler E fuel true db startHeight endHeight = some (e, db', done) →
            e ≠ ConvertEnd.startAboveEnd ∧ e ≠ ConvertEnd.endAboveTail
              ∧ (∃ m, done = List.range' startHeight m ∧ startHeight + m ≤ eff + 1)
              ∧ ((e = ConvertEnd.saved ∨ e = ConvertEnd.saveFailed) →
                  done = List.range' startHeight (eff + 1 - startHeight)))
          ∧ (∀ r, DeleteAllUtxosFromOldDb E fuel db = some r → r.err = none →
              (∀ h, startHeight ≤ h → h ≤ eff → r.db.Get (E.UintToHex h) ≠ none) →
              eff + 2 - startHeight ≤ fuel →
              ∃ e db', utxoConvertCmdHandler E fuel true db startHeight endHeight
                  = some (e, db', List.range' startHeight (eff + 1 - startHeight))
                ∧ (e = ConvertEnd.saved ∨ e = ConvertEnd.saveFailed))) :=
  ⟨handler_rejected E fuel db startHeight endHeight eff tailBlock htail heff,
    fun hacc =>
      ⟨handler_accepted_result E fuel db startHeight endHeight eff tailBlock htail heff hacc,
        fun r hd hre hres hf =>
          handler_accepted_total E fuel db startHeight endHeight eff tailBlock htail heff hacc
            r hd hre hres hf⟩⟩

/-- C7 (witness): on `sampleBlockDB`, whose tail height is 0, the range from 1
is rejected with the store unchanged, and the range from 0 is processed as the
single height 0. -/
theorem utxoConvertCmdHandler_range_witness :
    (∃ e, utxoConvertCmdHandler sampleEnv 3 true sampleBlockDB 1 0 = some (e, sampleBlockDB, [])
        ∧ (e = ConvertEnd.startAboveEnd ∨ e = ConvertEnd.endAboveTail))
      ∧ (∃ e db', utxoConvertCmdHandler sampleEnv 3 true sampleBlockDB 0 0
          = some (e, db', List.range' 0 (0 + 1 - 0))
        ∧ (e = ConvertEnd.saved ∨ e = ConvertEnd.saveFailed)) :=
  ⟨(utxoConvertCmdHandler_range sampleEnv 3 sampleBlockDB 1 0 0 (sampleDeserialize [0, 171])
      rfl rfl).1 (Or.inl (by decide)),
   ((utxoConvertCmdHandler_range sampleEnv 3 sampleBlockDB 0 0 0 (sampleDeserialize [0, 171])
      rfl rfl).2 (by decide)).2 _ rfl rfl (by decide) (by decide)⟩

/-- C7 (counterexample): on `sampleGapDB` the tail height is 1 and the range
from 0 to the tail is accepted, but height 0 has no height entry: the clearing
step fails and no height is processed, where the claim has heights 0 and 1
processed. -/
theorem utxoConvertCmdHandler_accepted_range_not_processed :
    GetTailBlock sampleEnv sampleGapDB = Except.ok (sampleDeserialize [1])
      ∧ (sampleDeserialize [1]).GetHeight = 1
      ∧ ¬ (0 > 1 ∨ 1 > (sampleDeserialize [1]).GetHeight)
      ∧ utxoConvertCmdHandler sampleEnv 3 true sampleGapDB 0 0
          = some (ConvertEnd.clearFailed, sampleGapDB, [])
      ∧ ([] : List Nat) ≠ [0, 1] := by
  refine ⟨rfl, by decide, by decide, by decide, by decide⟩

end Generator

/-! ### The UTXO key is collision-free -/

theorem natDec_ne_nil (n : Nat) : natDec n ≠ [] := by
  unfold natDec
  split_ifs with h
  · simp
  · simp [Nat.digits_ne_nil_iff_ne_zero, h]

theorem mem_natDec (n c : Nat) (h : c ∈ natDec n) : 48 ≤ c ∧ c ≤ 57 := by
  unfold natDec at h
  split_ifs at h with h0
  · simp at h; omega
  · simp only [List.mem_map, List.mem_reverse] at h
    obtain ⟨d, hd, rfl⟩ := h
    have := Nat.digits_lt_base (by norm_num : 1 < 10) hd
    omega

theorem natDec_inj (n m : Nat) (h : natDec n = natDec m) : n = m := by
  have hinj : Function.Injective (fun d : Nat => 48 + d) := fun a b e => by
    simp only at e; omega
  have hlead : ∀ k : Nat, k ≠ 0 →
      ((Nat.digits 10 k).reverse.map (fun d => 48 + d)) ≠ [48] := by
    intro k hk e
    have hne : Nat.digits 10 k ≠ [] := Nat.digits_ne_nil_iff_ne_zero.mpr hk
    have hlast := Nat.getLast_digit_ne_zero 10 hk
    have e' : (Nat.digits 10 k).reverse = [0] := by
      apply List.map_injective_iff.mpr hinj
      simpa using e
    have e'' : Nat.digits 10 k = [0] := by
      have := congrArg List.reverse e'
      simpa using this
    simp [e''] at hlast
  unfold natDec at h
  split_ifs at h with hn hm hm
  · rw [hn, hm]
  · exact absurd h.symm (hlead m hm)
  · exact absurd h (hlead n hn)
  · have e1 := List.map_injective_iff.mpr hinj h
    have e2 := List.reverse_injective e1
    exact Nat.digits_inj_iff.mp e2

theorem Itoa_inj (i j : Int) (h : Itoa i = Itoa j) : i = j := by
  have hno : ∀ (n m : Nat), natDec n ≠ 45 :: natDec m := by
    intro n m e
    have hmem : (45 : Nat) ∈ natDec n := by rw [e]; simp
    have := mem_natDec n 45 hmem
    omega
  unfold Itoa at h
  split_ifs at h with hi hj hj
  · have := natDec_inj _ _ (List.cons_injective h)
    omega
  · exact absurd h.symm (hno _ _)
  · exact absurd h (hno _ _)
  · have := natDec_inj _ _ h
    omega

theorem underscore_not_mem_Itoa (i : Int) : 95 ∉ Itoa i := by
  intro h
  unfold Itoa at h
  split_ifs at h
  · rcases List.mem_cons.mp h with e | e
    · omega
    · have := mem_natDec _ _ e; omega
  · have := mem_natDec _ _ h; omega

theorem split_at_last_underscore (a : Bytes) :
    ∀ (b x y : Bytes), 95 ∉ x → 95 ∉ y → a ++ 95 :: x = b ++ 95 :: y → a = b ∧ x = y := by
  induction a with
  | nil =>
    intro b x y hx hy h
    cases b with
    | nil => simpa using h
    | cons c b' =>
      simp only [List.nil_append, List.cons_append, List.cons.injEq] at h
      exact absurd (h.2 ▸ (by simp : (95 : Nat) ∈ b' ++ 95 :: y)) hx
  | cons c a' ih =>
    intro b x y hx hy h
    cases b with
    | nil =>
      simp only [List.nil_append, List.cons_append, List.cons.injEq] at h
      exact absurd (h.2 ▸ (by simp : (95 : Nat) ∈ a' ++ 95 :: x)) hy
    | cons d b' =>
      simp only [List.cons_append, List.cons.injEq] at h
      obtain ⟨e1, e2⟩ := ih b' x y hx hy h.2
      exact ⟨by rw [h.1, e1], e2⟩

namespace Upgrade

/-- C13: the key that `UTXOTxOld.PutUtxo` appends, the bytes of `Txid`, an
underscore and the decimal rendering of `TxIndex`, is a function of the pair
and is collision-free: equal keys imply equal transaction ids and equal
output indices, whatever bytes the transaction ids contain. -/
theorem oldKey_collision_free (t : UTXOTxOld) (u1 u2 : OldUTXO) :
    (t.PutUtxo u1).Key = t.Key ++ [u1.Txid ++ 95 :: Itoa u1.TxIndex]
      ∧ (oldKey u1 = oldKey u2 → u1.Txid = u2.Txid ∧ u1.TxIndex = u2.TxIndex) := by
  refine ⟨rfl, fun h => ?_⟩
  obtain ⟨e1, e2⟩ := split_at_last_underscore u1.Txid u2.Txid _ _
    (underscore_not_mem_Itoa _) (underscore_not_mem_Itoa _) h
  exact ⟨e1, Itoa_inj _ _ e2⟩

/-- C13 (witness): two entries whose transaction ids contain an underscore and
digit characters and whose keys are equal have the same transaction id and
index. -/
theorem oldKey_collision_free_witness :
    ({ sampleOldA with Txid := [49, 95, 50] } : OldUTXO).Txid
        = ({ sampleOldB with Txid := [49, 95, 50] } : OldUTXO).Txid
      ∧ ({ sampleOldA with Txid := [49, 95, 50] } : OldUTXO).TxIndex
        = ({ sampleOldB with Txid := [49, 95, 50] } : OldUTXO).TxIndex :=
  (oldKey_collision_free NewUTXOTxOld { sampleOldA with Txid := [49, 95, 50] }
    { sampleOldB with Txid := [49, 95, 50] }).2 (by decide)

/-! ### The backup comes first -/

/-- C12: in `ConvertAndSaveUtxoIndexToDB` every delete or put on the live store
happens after the backup copy has succeeded.  When the copy fails the run ends
with the store unchanged and no chain converted, without completing; when the
collected index is empty the run returns with the store unchanged; and
whenever the store has changed, the copy had succeeded and the index was not
empty. -/
theorem ConvertAndSave_backup_first (P : Proto) (backupOk : Bool) (db : DB)
    (idx : OldUtxoIndex) :
    ((ConvertAndSaveUtxoIndexToDB P false db idx).2 = (db, 0)
        ∧ (ConvertAndSaveUtxoIndexToDB P false db idx).1 ≠ Ending.completed
        ∧ (ConvertAndSaveUtxoIndexToDB P false db idx).1 ≠ Ending.failed)
      ∧ (idx.PublicKey = [] → (ConvertAndSaveUtxoIndexToDB P backupOk db idx).2 = (db, 0))
      ∧ (ConvertAndSaveUtxoIndexToDB P backupOk db { PublicKey := [], OldUTXOTx := [] }
          = (Ending.nothingToDo, db, 0))
      ∧ ((ConvertAndSaveUtxoIndexToDB P backupOk db idx).2.1 ≠ db →
          backupOk = true ∧ idx.PublicKey ≠ []) := by
  refine ⟨?_, ?_, ?_, ?_⟩
  · unfold ConvertAndSaveUtxoIndexToDB
    split_ifs with h1 h2 h3
    · simp
    · simp
    · simp
    · exact absurd rfl h3
  · intro h
    unfold ConvertAndSaveUtxoIndexToDB
    split_ifs with h1 h2
    · rfl
    · rfl
    · exact absurd (by simp [h]) h2
    · exact absurd (by simp [h]) h2
  · simp [ConvertAndSaveUtxoIndexToDB]
  · intro h
    unfold ConvertAndSaveUtxoIndexToDB at h
    split_ifs at h with h1 h2 h3
    · exact absurd rfl h
    · exact absurd rfl h
    · exact absurd rfl h
    · refine ⟨by simpa using h3, fun e => h2 (by simp [e])⟩

/-- C12 (witness): the migration of `sampleLegacyDB` changed the store, so the
backup copy had succeeded. -/
theorem ConvertAndSave_backup_first_witness :
    true = true ∧ [PubKeyHashString [171]] ≠ ([] : List Bytes) :=
  (ConvertAndSave_backup_first sampleProto true sampleLegacyDB
    { PublicKey := [PubKeyHashString [171]], OldUTXOTx := [buildOld [sampleOldA]] }).2.2.2
    (by decide)

/-! ### The embedded-chain loop terminates -/

theorem PutUtxo_lengths (t : UTXOTxOld) (u : OldUTXO) (h : t.Key.length = t.UTXO.length) :
    (t.PutUtxo u).Key.length = (t.PutUtxo u).UTXO.length := by
  simp [UTXOTxOld.PutUtxo, h]

theorem decodeChain_lengths (P : Proto) (fuel : Nat) :
    ∀ (cur : UtxoPb) (acc : UTXOTxOld) (err : Option Err) (tx : UTXOTxOld),
      acc.Key.length = acc.UTXO.length → decodeChain P fuel cur acc = some (err, tx) →
      tx.Key.length = tx.UTXO.length := by
  induction fuel with
  | zero => intro cur acc err tx _ h; simp [decodeChain] at h
  | succ f ih =>
    intro cur acc err tx hacc h
    cases hn : cur.NextUtxoKey with
    | none =>
      simp only [decodeChain, hn, Option.some.injEq, Prod.mk.injEq] at h
      rw [← h.2]; exact hacc
    | some next =>
      cases hu : P.unmarshalV4 next with
      | none =>
        simp only [decodeChain, hn, hu, Option.some.injEq, Prod.mk.injEq] at h
        rw [← h.2]; exact PutUtxo_lengths _ _ hacc
      | some nxt =>
        simp only [decodeChain, hn, hu] at h
        exact ih nxt _ err tx (PutUtxo_lengths _ _ hacc) h

theorem decodeChain_terminates (P : Proto) (hshort : P.NextShorter) (fuel : Nat) :
    ∀ (b : Bytes) (cur : UtxoPb) (acc : UTXOTxOld),
      P.unmarshalV4 b = some cur → b.length + 1 ≤ fuel →
      ∃ err tx, decodeChain P fuel cur acc = some (err, tx)
        ∧ tx.UTXO.length ≤ acc.UTXO.length + b.length := by
  induction fuel with
  | zero => intro b cur acc _ hf; omega
  | succ f ih =>
    intro b cur acc hb hf
    cases hn : cur.NextUtxoKey with
    | none => exact ⟨none, acc, by simp [decodeChain, hn], by omega⟩
    | some next =>
      have hlt := hshort b cur next hb hn
      cases hu : P.unmarshalV4 next with
      | none =>
        refine ⟨some Err.protoFault, acc.PutUtxo (FromProto cur), by simp [decodeChain, hn, hu], ?_⟩
        simp only [UTXOTxOld.PutUtxo, List.length_append, List.length_singleton]
        omega
      | some nxt =>
        obtain ⟨err, tx, h1, h2⟩ := ih next nxt (acc.PutUtxo (FromProto cur)) hu (by omega)
        refine ⟨err, tx, by simp [decodeChain, hn, hu, h1], ?_⟩
        simp only [UTXOTxOld.PutUtxo, List.length_append, List.length_singleton] at h2
        omega

theorem decodeChain_ok_chain (P : Proto) (fuel : Nat) :
    ∀ (cur : UtxoPb) (acc tx : UTXOTxOld), decodeChain P fuel cur acc = some (none, tx) →
      ∃ rest, ChainFrom P cur rest := by
  induction fuel with
  | zero => intro cur acc tx h; simp [decodeChain] at h
  | succ f ih =>
    intro cur acc tx h
    cases hn : cur.NextUtxoKey with
    | none => exact ⟨[], hn⟩
    | some next =>
      cases hu : P.unmarshalV4 next with
      | none => simp [decodeChain, hn, hu] at h
      | some nxt =>
        simp only [decodeChain, hn, hu] at h
        obtain ⟨rest, hr⟩ := ih nxt _ tx h
        exact ⟨nxt :: rest, next, hn, hu, hr⟩

/-- C14: for a v0.4.0 decoder whose next field is strictly shorter than the
buffer it was decoded from, the embedded-chain loop of `DeserializeUTXOTx`
ends on every input value within as many rounds as the value has bytes, with
no chain-length guard: the call returns, the number of recorded entries is at
most the length of the value, and the result carries an error exactly when
the decoding fails at some depth, that is, when the value encodes no chain. -/
theorem DeserializeUTXOTx_terminates (P : Proto) (hshort : P.NextShorter) (fuel : Nat)
    (d : Bytes) (version : String) (hv : version ≠ "v0.3.0") (hf : d.length + 1 ≤ fuel) :
    ∃ err tx, DeserializeUTXOTx P fuel d version = some (err, tx)
      ∧ tx.UTXO.length ≤ d.length
      ∧ tx.Key.length = tx.UTXO.length
      ∧ (err = none ↔ ∃ es, EncodesChain P d es) := by
  cases hu : P.unmarshalV4 d with
  | none =>
    refine ⟨some Err.protoFault, NewUTXOTxOld, by simp [DeserializeUTXOTx, hv, hu],
      by simp [NewUTXOTxOld], rfl, ?_⟩
    constructor
    · intro e; cases e
    · rintro ⟨es, hes⟩
      cases es with
      | nil => exact absurd hes (by simp [EncodesChain])
      | cons e rest => rw [EncodesChain, hu] at hes; exact absurd hes.1 (by simp)
  | some e =>
    obtain ⟨err, tx, h1, h2⟩ := decodeChain_terminates P hshort fuel d e NewUTXOTxOld hu hf
    have hl := decodeChain_lengths P fuel e NewUTXOTxOld err tx rfl h1
    refine ⟨err, tx, by simp [DeserializeUTXOTx, hv, hu, h1], by simpa [NewUTXOTxOld] using h2,
      hl, ?_⟩
    constructor
    · intro he
      subst he
      obtain ⟨rest, hr⟩ := decodeChain_ok_chain P fuel e NewUTXOTxOld tx h1
      exact ⟨e :: rest, hu, hr⟩
    · rintro ⟨es, hes⟩
      cases es with
      | nil => exact absurd hes (by simp [EncodesChain])
      | cons e' rest =>
        obtain ⟨he1, he2⟩ := hes
        rw [hu, Option.some.injEq] at he1
        subst he1
        have hlen : ∀ (rest : List UtxoPb) (b : Bytes) (c : UtxoPb),
            P.unmarshalV4 b = some c → ChainFrom P c rest → rest.length + 1 ≤ b.length + 1 := by
          intro rest
          induction rest with
          | nil => intro b c _ _; simp
          | cons x xs ih =>
            intro b c hb hc
            obtain ⟨d', hd1, hd2, hd3⟩ := hc
            have := hshort b c d' hb hd1
            have := ih d' x hd2 hd3
            simp only [List.length_cons] at this ⊢
            omega
        have hfuel : rest.length + 1 ≤ fuel := le_trans (hlen rest d e hu he2) hf
        rw [decodeChain_of_chain P rest fuel e NewUTXOTxOld he2 hfuel] at h1
        simp only [Option.some.injEq, Prod.mk.injEq] at h1
        exact h1.1.symm

theorem takeField_shorter (d f r : Bytes) (h : takeField d = some (f, r)) :
    r.length < d.length := by
  cases d with
  | nil => simp [takeField] at h
  | cons n t =>
    simp only [takeField] at h
    split_ifs at h
    simp only [Option.some.injEq, Prod.mk.injEq] at h
    rw [← h.2]
    simp only [List.length_drop, List.length_cons]
    omega

theorem sampleProto_nextShorter : sampleProto.NextShorter := by
  intro d e n hd hn
  simp only [sampleProto, sampleUnmarshalV4] at hd
  cases h1 : takeField d with
  | none => simp [h1] at hd
  | some p1 =>
    obtain ⟨amount, d1⟩ := p1
    simp only [h1] at hd
    cases h2 : takeField d1 with
    | none => simp [h2] at hd
    | some p2 =>
      obtain ⟨pkh, d2⟩ := p2
      simp only [h2] at hd
      cases h3 : takeField d2 with
      | none => simp [h3] at hd
      | some p3 =>
        obtain ⟨txid, d3⟩ := p3
        simp only [h3] at hd
        match d3, hd with
        | [], hd => simp at hd
        | [_], hd => simp at hd
        | idx :: kind :: d4, hd =>
          simp only at hd
          cases h4 : takeField d4 with
          | none => simp [h4] at hd
          | some p4 =>
            obtain ⟨contract, rest⟩ := p4
            simp only [h4, Option.some.injEq] at hd
            subst hd
            simp only at hn
            split_ifs at hn with hr
            simp only [Option.some.injEq] at hn
            subst hn
            have l1 := takeField_shorter _ _ _ h1
            have l2 := takeField_shorter _ _ _ h2
            have l3 := takeField_shorter _ _ _ h3
            have l4 := takeField_shorter _ _ _ h4
            simp only [List.length_cons] at l3 l4
            omega

/-- C14 (witness): the sample decoder returns shorter next fields, and the
twenty bytes of `sampleChain2` are decoded within twenty-one rounds. -/
theorem DeserializeUTXOTx_terminates_witness :
    ∃ err tx, DeserializeUTXOTx sampleProto 21 sampleChain2 "v0.4.0" = some (err, tx)
      ∧ tx.UTXO.length ≤ sampleChain2.length
      ∧ tx.Key.length = tx.UTXO.length
      ∧ (err = none ↔ ∃ es, EncodesChain sampleProto sampleChain2 es) :=
  DeserializeUTXOTx_terminates sampleProto sampleProto_nextShorter 21 sampleChain2 "v0.4.0"
    (by decide) (by decide)

end Upgrade

/-! ### Entries of the store after writes -/

theorem mem_kvDel (l : List (Bytes × Bytes)) (k : Bytes) (p : Bytes × Bytes)
    (h : p ∈ kvDel l k) : p ∈ l ∧ p.1 ≠ k := by
  induction l with
  | nil => simp [kvDel] at h
  | cons q rest ih =>
    obtain ⟨k0, v0⟩ := q
    by_cases hk : k0 = k
    · rw [kvDel, if_pos hk] at h
      exact ⟨List.mem_cons_of_mem _ (ih h).1, (ih h).2⟩
    · rw [kvDel, if_neg hk] at h
      rcases List.mem_cons.mp h with e | e
      · subst e
        exact ⟨List.mem_cons_self _ _, hk⟩
      · exact ⟨List.mem_cons_of_mem _ (ih e).1, (ih e).2⟩

theorem mem_kvPut (l : List (Bytes × Bytes)) (k v : Bytes) (p : Bytes × Bytes)
    (h : p ∈ kvPut l k v) : p = (k, v) ∨ (p ∈ l ∧ p.1 ≠ k) := by
  rcases List.mem_cons.mp h with e | e
  · exact Or.inl e
  · exact Or.inr (mem_kvDel l k p e)

theorem DB.Put_ok_kv (db db' : DB) (k v : Bytes) (h : db.Put k v = (none, db')) :
    db'.kv = kvPut db.kv k v := by
  unfold DB.Put at h
  split at h <;> simp at h <;> subst h <;> rfl

theorem DB.Del_ok_kv (db db' : DB) (k : Bytes) (h : db.Del k = (none, db')) :
    db'.kv = kvDel db.kv k := by
  unfold DB.Del at h
  split at h <;> simp at h <;> subst h <;> rfl

theorem hexVal_hexDigit_eq (d x : Nat) (h : hexVal (hexDigit d) = some x) : x = d := by
  unfold hexVal hexDigit at h
  split_ifs at h <;> simp at h <;> omega

theorem hexDecode_hexEncode_eq (k : Bytes) :
    ∀ k' : Bytes, hexDecode (hexEncode k) = some k' → k' = k := by
  induction k with
  | nil => intro k' h; simp [hexEncode, hexDecode] at h; exact h
  | cons b rest ih =>
    intro k' h
    simp only [hexEncode, hexDecode] at h
    cases h1 : hexVal (hexDigit (b / 16)) with
    | none => simp [h1] at h
    | some x =>
      cases h2 : hexVal (hexDigit (b % 16)) with
      | none => simp [h1, h2] at h
      | some y =>
        cases h3 : hexDecode (hexEncode rest) with
        | none => simp [h1, h2, h3] at h
        | some r =>
          simp only [h1, h2, h3, Option.some.injEq] at h
          have e1 := hexVal_hexDigit_eq _ _ h1
          have e2 := hexVal_hexDigit_eq _ _ h2
          have e3 := ih r h3
          rw [← h, e3]
          congr 1
          omega

namespace Upgrade

/-! ### Discovery -/

theorem DeserializeUTXOTx_lengths (P : Proto) (fuel : Nat) (d : Bytes) (version : String)
    (err : Option Err) (tx : UTXOTxOld)
    (h : DeserializeUTXOTx P fuel d version = some (err, tx)) :
    tx.Key.length = tx.UTXO.length := by
  unfold DeserializeUTXOTx at h
  split_ifs at h with hv
  · cases hu : P.unmarshalV3 d with
    | none =>
      simp only [hu, Option.some.injEq, Prod.mk.injEq] at h
      rw [← h.2]; rfl
    | some utxos =>
      simp only [hu, Option.some.injEq, Prod.mk.injEq] at h
      rw [← h.2]
      have : utxos.foldl (fun t pb => t.PutUtxo (FromProto pb)) NewUTXOTxOld
          = (utxos.map FromProto).foldl (fun t u => t.PutUtxo u) NewUTXOTxOld := by
        rw [List.foldl_map]
      rw [this, foldl_PutUtxo_old]
      simp [NewUTXOTxOld]
  · cases hu : P.unmarshalV4 d with
    | none =>
      simp only [hu, Option.some.injEq, Prod.mk.injEq] at h
      rw [← h.2]; rfl
    | some e =>
      simp only [hu] at h
      exact decodeChain_lengths P fuel e NewUTXOTxOld err tx rfl h

theorem collectStep_spec (P : Proto) (fuel : Nat) (version : String) (idx : OldUtxoIndex)
    (k v : Bytes) (err : Option Err) (tx : UTXOTxOld)
    (h : DeserializeUTXOTx P fuel v version = some (err, tx)) :
    collectStep P fuel version idx (k, v)
      = some (Run.returned
          (if eligible P fuel version k v = true then
            { PublicKey := idx.PublicKey ++ [PubKeyHashString k],
              OldUTXOTx := idx.OldUTXOTx ++ [tx] }
          else idx)) := by
  have hlen := DeserializeUTXOTx_lengths P fuel v version err tx h
  have hvalid : isValidUtxotx k tx = some (validLoop (PubKeyHashString k) tx.UTXO) := by
    simp [isValidUtxotx, hlen]
  simp only [collectStep, eligible, h, hvalid]
  cases err with
  | some e => simp
  | none =>
    by_cases h1 : tx.Key.length = 0
    · simp [h1]
    · by_cases h2 : tx.UTXO.length = 0
      · simp [h2]
      · cases h3 : isValidUtxoKeyValue P k v with
        | true => simp [h3]
        | false =>
          cases h4 : validLoop (PubKeyHashString k) tx.UTXO with
          | true => simp [h1, h2, h3, h4, hvalid]
          | false => simp [h1, h2, h3, h4, hvalid]

theorem collectLoop_collects (P : Proto) (fuel : Nat) (version : String)
    (L : List (Bytes × Bytes)) :
    ∀ (idx idx' : OldUtxoIndex), collectLoop P fuel version idx L = some (Run.returned idx') →
      (∀ x ∈ idx.PublicKey, x ∈ idx'.PublicKey)
        ∧ (∀ p ∈ L, eligible P fuel version p.1 p.2 = true →
            PubKeyHashString p.1 ∈ idx'.PublicKey) := by
  induction L with
  | nil =>
    intro idx idx' h
    simp only [collectLoop, Option.some.injEq, Run.returned.injEq] at h
    subst h
    exact ⟨fun _ hx => hx, fun p hp => absurd hp (List.not_mem_nil _)⟩
  | cons cur rest ih =>
    intro idx idx' h
    obtain ⟨k, v⟩ := cur
    cases hd : DeserializeUTXOTx P fuel v version with
    | none => simp [collectLoop, collectStep, hd] at h
    | some r =>
      obtain ⟨err, tx⟩ := r
      simp only [collectLoop, collectStep_spec P fuel version idx k v err tx hd] at h
      obtain ⟨h1, h2⟩ := ih _ idx' h
      refine ⟨?_, ?_⟩
      · intro x hx
        apply h1
        split_ifs
        · exact List.mem_append_left _ hx
        · exact hx
      · intro p hp he
        rcases List.mem_cons.mp hp with e | e
        · subst e
          apply h1
          rw [if_pos he]
          simp
        · exact h2 p e he

theorem collectLoop_nothing (P : Proto) (fuel : Nat) (version : String)
    (L : List (Bytes × Bytes)) (idx : OldUtxoIndex)
    (hfuel : ∀ p ∈ L, DeserializeUTXOTx P fuel p.2 version ≠ none)
    (hel : ∀ p ∈ L, eligible P fuel version p.1 p.2 = false) :
    collectLoop P fuel version idx L = some (Run.returned idx) := by
  induction L with
  | nil => rfl
  | cons cur rest ih =>
    obtain ⟨k, v⟩ := cur
    have hf := hfuel (k, v) (List.mem_cons_self _ _)
    have he := hel (k, v) (List.mem_cons_self _ _)
    obtain ⟨r, hr⟩ := Option.ne_none_iff_exists'.mp hf
    obtain ⟨err, tx⟩ := r
    simp only at hr he
    simp only [collectLoop, collectStep_spec P fuel version idx k v err tx hr, he]
    exact ih (fun p hp => hfuel p (List.mem_cons_of_mem _ hp))
      (fun p hp => hel p (List.mem_cons_of_mem _ hp))

theorem mem_iterate (db : DB) (p : Bytes × Bytes) : p ∈ iterate db ↔ p ∈ db.kv :=
  (List.perm_insertionSort _ _).mem_iff

theorem eligible_record_false (P : Proto) (hrt : P.RoundTrip) (fuel : Nat) (version : String)
    (u : UTXO) (raw : Bytes) (h : P.marshalNew u = some raw) :
    eligible P fuel version (GetUTXOKey u) raw = false := by
  have hv : isValidUtxoKeyValue P (GetUTXOKey u) raw = true := by
    simp [isValidUtxoKeyValue, hrt u raw h]
  unfold eligible
  split
  · simp [hv]
  · rfl

theorem underscore_mem_of_valid_key (P : Proto) (k v : Bytes)
    (h : isValidUtxoKeyValue P k v = true) : 95 ∈ k := by
  unfold isValidUtxoKeyValue at h
  split at h
  · exact absurd h (by simp)
  · rename_i utxo _
    have e : GetUTXOKey utxo = k := of_decide_eq_true h
    rw [← e]
    exact underscore_mem_GetUTXOKey utxo

theorem addLoop_preserves (P : Proto) (Q : Bytes × Bytes → Prop)
    (hrec : ∀ u raw, P.marshalNew u = some raw → Q (GetUTXOKey u, raw))
    (pairs : List (Bytes × UTXO)) :
    ∀ (db db' : DB) (last last' : Bytes), addLoop P db last pairs = (none, db', last') →
      (∀ p ∈ db.kv, Q p) → ∀ p ∈ db'.kv, Q p := by
  induction pairs with
  | nil =>
    intro db db' last last' h hq
    simp only [addLoop, Prod.mk.injEq, true_and] at h
    rw [← h.1]
    exact hq
  | cons pr rest ih =>
    intro db db' last last' h hq
    obtain ⟨KEY, u⟩ := pr
    simp only [addLoop, putUTXOToDB, Str2bytes] at h
    cases hm : P.marshalNew { u with NextUtxoKey := last } with
    | none => simp [hm] at h
    | some raw =>
      simp only [hm] at h
      rcases hp : db.Put (GetUTXOKey { u with NextUtxoKey := last }) raw with ⟨e, db1⟩
      rw [hp] at h
      cases e with
      | some err => simp at h
      | none =>
        simp only at h
        apply ih db1 db' _ last' h
        intro p hp1
        rw [DB.Put_ok_kv db db1 _ _ hp] at hp1
        rcases mem_kvPut _ _ _ _ hp1 with e | e
        · rw [e]
          exact hrec _ _ hm
        · exact hq p e.1

theorem AddUtxos_preserves (P : Proto) (Q : Bytes × Bytes → Prop)
    (hrec : ∀ u raw, P.marshalNew u = some raw → Q (GetUTXOKey u, raw))
    (db db' : DB) (tx : UTXOTxNew) (pubkey : Bytes) (hhead : ∀ v, Q (pubkey, v))
    (h : AddUtxos P db tx pubkey = Run.returned (none, db')) (hq : ∀ p ∈ db.kv, Q p) :
    ∀ p ∈ db'.kv, Q p := by
  unfold AddUtxos at h
  split_ifs at h
  rcases hl : addLoop P db [] (tx.Key.zip tx.UTXO) with ⟨e, db1, last'⟩
  rw [hl] at h
  cases e with
  | some err => simp at h
  | none =>
    simp only [putLastUTXOKeyToDB, Str2bytes, Run.returned.injEq] at h
    have h1 := addLoop_preserves P Q hrec _ db db1 [] last' hl hq
    intro p hp
    rw [DB.Put_ok_kv db1 db' _ _ h] at hp
    rcases mem_kvPut _ _ _ _ hp with e | e
    · rw [e]
      exact hhead _
    · exact h1 p e.1

theorem exists_mem_zip_of_mem (l1 : List Bytes) :
    ∀ (l2 : List UTXOTxOld) (x : Bytes), l1.length = l2.length → x ∈ l1 →
      ∃ q ∈ l1.zip l2, q.1 = x := by
  induction l1 with
  | nil => intro l2 x _ hx; exact absurd hx (List.not_mem_nil _)
  | cons a rest ih =>
    intro l2 x hl hx
    cases l2 with
    | nil => simp at hl
    | cons b rest2 =>
      rcases List.mem_cons.mp hx with e | e
      · exact ⟨(a, b), by simp, e.symm⟩
      · obtain ⟨q, hq, hqe⟩ := ih rest2 x (by simpa using hl) e
        exact ⟨q, by simp only [List.zip_cons_cons]; exact List.mem_cons_of_mem _ hq, hqe⟩

theorem convertLoop_inv (P : Proto) (hrt : P.RoundTrip) (fuel : Nat) (version : String)
    (pubs : List Bytes) (pending : List (Bytes × UTXOTxOld)) :
    ∀ (db db' : DB) (n n' : Nat), (∀ q ∈ pending, q.1 ∈ pubs) →
      convertLoop P db n pending = (Ending.completed, db', n') →
      (∀ p ∈ db.kv, eligible P fuel version p.1 p.2 = false ∨ p.1 ∈ pubs
          ∨ ∃ q ∈ pending, q.1 = hexEncode p.1) →
      ∀ p ∈ db'.kv, eligible P fuel version p.1 p.2 = false ∨ p.1 ∈ pubs := by
  induction pending with
  | nil =>
    intro db db' n n' _ h hq p hp
    simp only [convertLoop, Prod.mk.injEq, true_and] at h
    rw [← h.1] at hp
    rcases hq p hp with e | e | ⟨q, hq', _⟩
    · exact Or.inl e
    · exact Or.inr e
    · exact absurd hq' (List.not_mem_nil _)
  | cons pr rest ih =>
    intro db db' n n' hpubs h hq
    obtain ⟨pubkey, oldtx⟩ := pr
    simp only [convertLoop] at h
    cases hc : ConvertUtxotx oldtx with
    | none => simp [hc] at h
    | some newtx =>
      simp only [hc] at h
      cases hx : hexDecode pubkey with
      | none => simp [hx] at h
      | some pkh =>
        simp only [hx] at h
        rcases hd : db.Del pkh with ⟨e, db1⟩
        rw [hd] at h
        cases e with
        | some err => simp at h
        | none =>
          simp only at h
          cases ha : AddUtxos P db1 newtx pubkey with
          | panicked => rw [ha] at h; simp at h
          | returned r =>
            obtain ⟨ea, db2⟩ := r
            rw [ha] at h
            cases ea with
            | some err => simp at h
            | none =>
              simp only at h
              have hq1 : ∀ p ∈ db1.kv, eligible P fuel version p.1 p.2 = false ∨ p.1 ∈ pubs
                  ∨ ∃ q ∈ rest, q.1 = hexEncode p.1 := by
                intro p hp
                rw [DB.Del_ok_kv db db1 pkh hd] at hp
                obtain ⟨hin, hne⟩ := mem_kvDel _ _ _ hp
                rcases hq p hin with e | e | ⟨q, hq', hqe⟩
                · exact Or.inl e
                · exact Or.inr (Or.inl e)
                · rcases List.mem_cons.mp hq' with e | e
                  · subst e
                    simp only at hqe
                    rw [hqe] at hx
                    exact absurd (hexDecode_hexEncode_eq p.1 pkh hx).symm hne
                  · exact Or.inr (Or.inr ⟨q, e, hqe⟩)
              have hq2 := AddUtxos_preserves P
                (fun p => eligible P fuel version p.1 p.2 = false ∨ p.1 ∈ pubs
                  ∨ ∃ q ∈ rest, q.1 = hexEncode p.1)
                (fun u raw hm => Or.inl (eligible_record_false P hrt fuel version u raw hm))
                db1 db2 newtx pubkey
                (fun _ => Or.inr (Or.inl (hpubs (pubkey, oldtx) (List.mem_cons_self _ _))))
                ha hq1
              exact ih db2 db' (n + 1) n'
                (fun q hq' => hpubs q (List.mem_cons_of_mem _ hq')) h hq2

/-- C11 (amended): when discovery on a store returns the index `idx` and the
migration of `idx` completes, a second discovery on the resulting store
collects zero legacy chains and the second run returns with the store
unchanged, provided that no entry left under an owner string of `idx` (a head
pointer, whose value is a UTXO key and which `isValidUtxoKeyValue` never
recognises) passes the discovery test, and that the decoder ends on the values
of the new store.  Every record written by the first run is recognised as
current-schema by `isValidUtxoKeyValue` when the codec decodes what it
encoded. -/
theorem second_discovery_collects_nothing (P : Proto) (hrt : P.RoundTrip) (fuel : Nat)
    (version : String) (db db' : DB) (idx : OldUtxoIndex) (n : Nat)
    (hdisc : getOldUtxoIndexFromDB P fuel true db version = some (Run.returned idx))
    (hrun : ConvertAndSaveUtxoIndexToDB P true db idx = (Ending.completed, db', n))
    (hfuel : ∀ p ∈ db'.kv, DeserializeUTXOTx P fuel p.2 version ≠ none)
    (hhead : ∀ p ∈ db'.kv, p.1 ∈ idx.PublicKey → eligible P fuel version p.1 p.2 = false) :
    getOldUtxoIndexFromDB P fuel true db' version
        = some (Run.returned { PublicKey := [], OldUTXOTx := [] })
      ∧ (∀ backupOk : Bool,
          ConvertAndSaveUtxoIndexToDB P backupOk db' { PublicKey := [], OldUTXOTx := [] }
            = (Ending.nothingToDo, db', 0))
      ∧ (∀ (u : UTXO) (raw : Bytes), P.marshalNew u = some raw →
          isValidUtxoKeyValue P (GetUTXOKey u) raw = true) := by
  simp only [getOldUtxoIndexFromDB, Bool.true_eq_false, if_false] at hdisc
  obtain ⟨_, hcol⟩ := collectLoop_collects P fuel version (iterate db) _ idx hdisc
  have hlen : idx.PublicKey.length = idx.OldUTXOTx.length := by
    by_contra hne
    simp [ConvertAndSaveUtxoIndexToDB, hne] at hrun
  have hloop : convertLoop P db 0 (idx.PublicKey.zip idx.OldUTXOTx)
      = (Ending.completed, db', n) := by
    unfold ConvertAndSaveUtxoIndexToDB at hrun
    split_ifs at hrun
    all_goals first | exact hrun | simp at hrun
  have hinit : ∀ p ∈ db.kv, eligible P fuel version p.1 p.2 = false ∨ p.1 ∈ idx.PublicKey
      ∨ ∃ q ∈ idx.PublicKey.zip idx.OldUTXOTx, q.1 = hexEncode p.1 := by
    intro p hp
    cases he : eligible P fuel version p.1 p.2 with
    | false => exact Or.inl rfl
    | true =>
      have hm := hcol p ((mem_iterate db p).mpr hp) he
      exact Or.inr (Or.inr (exists_mem_zip_of_mem _ _ _ hlen hm))
  have hfin := convertLoop_inv P hrt fuel version idx.PublicKey _ db db' 0 n
    (fun q hq => (List.of_mem_zip (a := q.1) (b := q.2) hq).1) hloop hinit
  have hnone : ∀ p ∈ iterate db', eligible P fuel version p.1 p.2 = false := by
    intro p hp
    have hp' := (mem_iterate db' p).mp hp
    rcases hfin p hp' with e | e
    · exact e
    · exact hhead p hp' e
  refine ⟨?_, ?_, ?_⟩
  · simp only [getOldUtxoIndexFromDB, Bool.true_eq_false, if_false]
    exact collectLoop_nothing P fuel version _ _
      (fun p hp => hfuel p ((mem_iterate db' p).mp hp)) hnone
  · intro backupOk
    simp [ConvertAndSaveUtxoIndexToDB]
  · intro u raw hm
    simp [isValidUtxoKeyValue, hrt u raw hm]

/-- C11 (witness): the store left by the migration of `sampleLegacyDB` holds no
entry that a second discovery collects. -/
theorem second_discovery_collects_nothing_witness :
    getOldUtxoIndexFromDB sampleProto 2 true sampleConvertedDB "v0.4.0"
      = some (Run.returned { PublicKey := [], OldUTXOTx := [] }) :=
  (second_discovery_collects_nothing sampleProto sampleProto_roundTrip 2 "v0.4.0"
    sampleLegacyDB sampleConvertedDB
    { PublicKey := [PubKeyHashString [171]], OldUTXOTx := [buildOld [sampleOldA]] } 1
    (by decide) (by decide) (by decide) (by decide)).1

/-- C11 (counterexample): discovery on `sampleCraftedDB` collects the chain of
the owner `[171]` and its migration completes; a second discovery on the
resulting store collects one more chain, read out of the head pointer entry
stored under the string `ab`, whose value is the UTXO key of the migrated
record.  No codec lets `isValidUtxoKeyValue` recognise an entry stored under a
hexadecimal owner string. -/
theorem second_discovery_collects_head_pointer :
    getOldUtxoIndexFromDB sampleProto 3 true sampleCraftedDB "v0.4.0"
        = some (Run.returned { PublicKey := [PubKeyHashString [171]],
                               OldUTXOTx := [buildOld [sampleCraftedOld]] })
      ∧ ConvertAndSaveUtxoIndexToDB sampleProto true sampleCraftedDB
          { PublicKey := [PubKeyHashString [171]], OldUTXOTx := [buildOld [sampleCraftedOld]] }
        = (Ending.completed, sampleCraftedMigratedDB, 1)
      ∧ sampleProto.RoundTrip
      ∧ getOldUtxoIndexFromDB sampleProto 3 true sampleCraftedMigratedDB "v0.4.0"
        = some (Run.returned { PublicKey := [PubKeyHashString [97, 98]],
                               OldUTXOTx := [buildOld [sampleCraftedSecond]] })
      ∧ (∀ (P : Proto) (K v : Bytes), isValidUtxoKeyValue P (PubKeyHashString K) v = false) := by
  refine ⟨by decide, by decide, sampleProto_roundTrip, by decide, ?_⟩
  intro P K v
  cases h : isValidUtxoKeyValue P (PubKeyHashString K) v with
  | false => rfl
  | true =>
    exact absurd (underscore_mem_of_valid_key P _ v h) (underscore_not_mem_hexEncode K)

/-! ### The head pointer of one chain in a run over several chains -/

theorem convertLoop_step_entry (P : Proto) (db db' : DB) (n n' : Nat) (K : Bytes)
    (chain : List OldUTXO) (rest : List (Bytes × UTXOTxOld))
    (h : convertLoop P db n ((PubKeyHashString K, buildOld chain) :: rest)
        = (Ending.completed, db', n')) :
    ∃ db1 db2, db.Del K = (none, db1)
      ∧ AddUtxos P db1 (buildNew (chain.reverse.map ConvertUtxo)) (hexEncode K)
          = Run.returned (none, db2)
      ∧ convertLoop P db2 (n + 1) rest = (Ending.completed, db', n') := by
  simp only [convertLoop, ConvertUtxotx_buildOld, PubKeyHashString] at h
  cases hx : hexDecode (hexEncode K) with
  | none => simp [hx] at h
  | some pkh =>
    have hk := hexDecode_hexEncode_eq K pkh hx
    subst hk
    simp only [hx] at h
    rcases hd : db.Del pkh with ⟨e, db1⟩
    rw [hd] at h
    cases e with
    | some err => simp at h
    | none =>
      simp only at h
      cases ha : AddUtxos P db1 (buildNew (chain.reverse.map ConvertUtxo)) (hexEncode pkh) with
      | panicked => rw [ha] at h; simp at h
      | returned r =>
        obtain ⟨ea, db2⟩ := r
        rw [ha] at h
        cases ea with
        | some err => simp at h
        | none => exact ⟨db1, db2, rfl, ha, h⟩

theorem converted_keys (chain : List OldUTXO) :
    (chain.reverse.map ConvertUtxo).map GetUTXOKey = (chain.map oldKey).reverse := by
  rw [List.map_map, List.map_reverse]
  rfl

theorem convertLoop_frame (P : Proto) (post : List (Bytes × List OldUTXO)) :
    ∀ (db db' : DB) (n n' : Nat),
      convertLoop P db n (post.map (fun q => (PubKeyHashString q.1, buildOld q.2)))
        = (Ending.completed, db', n') →
      ∀ k : Bytes, (∀ q ∈ post, k ≠ q.1 ∧ k ≠ hexEncode q.1 ∧ k ∉ q.2.map oldKey) →
        db'.Get k = db.Get k := by
  induction post with
  | nil =>
    intro db db' n n' h k _
    simp only [List.map_nil, convertLoop, Prod.mk.injEq, true_and] at h
    rw [h.1]
  | cons q rest ih =>
    intro db db' n n' h k hk
    obtain ⟨db1, db2, hd, ha, hrest⟩ := convertLoop_step_entry P db db' n n' q.1 q.2 _ h
    obtain ⟨h1, h2, h3⟩ := hk q (List.mem_cons_self _ _)
    rw [ih db2 db' (n + 1) n' hrest k (fun q' hq' => hk q' (List.mem_cons_of_mem _ hq'))]
    rw [(AddUtxos_head P db1 db2 _ _ ha).2 k h2 (by rw [converted_keys, List.mem_reverse]; exact h3)]
    exact DB.Del_ok_ne db db1 q.1 k hd h1

theorem convertLoop_none_stays (P : Proto) (post : List (Bytes × List OldUTXO)) :
    ∀ (db db' : DB) (n n' : Nat),
      convertLoop P db n (post.map (fun q => (PubKeyHashString q.1, buildOld q.2)))
        = (Ending.completed, db', n') →
      ∀ k : Bytes, db.Get k = none →
        (∀ q ∈ post, k ≠ hexEncode q.1 ∧ k ∉ q.2.map oldKey) → db'.Get k = none := by
  induction post with
  | nil =>
    intro db db' n n' h k hn _
    simp only [List.map_nil, convertLoop, Prod.mk.injEq, true_and] at h
    rw [← h.1]
    exact hn
  | cons q rest ih =>
    intro db db' n n' h k hn hk
    obtain ⟨db1, db2, hd, ha, hrest⟩ := convertLoop_step_entry P db db' n n' q.1 q.2 _ h
    obtain ⟨h2, h3⟩ := hk q (List.mem_cons_self _ _)
    apply ih db2 db' (n + 1) n' hrest k _ (fun q' hq' => hk q' (List.mem_cons_of_mem _ hq'))
    rw [(AddUtxos_head P db1 db2 _ _ ha).2 k h2 (by rw [converted_keys, List.mem_reverse]; exact h3)]
    by_cases hkq : k = q.1
    · rw [hkq]
      exact DB.Del_ok_same db db1 q.1 hd
    · rw [DB.Del_ok_ne db db1 q.1 k hd hkq]
      exact hn

theorem convertLoop_head_pointer (P : Proto) (pre post : List (Bytes × List OldUTXO))
    (K : Bytes) (e : OldUTXO) (es : List OldUTXO) :
    ∀ (db db' : DB) (n n' : Nat),
      convertLoop P db n ((pre ++ (K, e :: es) :: post).map
          (fun q => (PubKeyHashString q.1, buildOld q.2))) = (Ending.completed, db', n') →
      ((∀ q ∈ post, q.1 ≠ K ∧ q.1 ≠ hexEncode K) →
          db'.Get (hexEncode K) = some (oldKey e))
        ∧ (K ≠ [] → K ∉ (e :: es).map oldKey →
            (∀ q ∈ post, hexEncode q.1 ≠ K ∧ K ∉ q.2.map oldKey) → db'.Get K = none) := by
  induction pre with
  | nil =>
    intro db db' n n' h
    simp only [List.nil_append, List.map_cons] at h
    obtain ⟨db1, db2, hd, ha, hrest⟩ := convertLoop_step_entry P db db' n n' K (e :: es) _ h
    obtain ⟨hh, hf⟩ := AddUtxos_head P db1 db2 _ _ ha
    refine ⟨?_, ?_⟩
    · intro hpost
      rw [convertLoop_frame P post db2 db' (n + 1) n' hrest (hexEncode K)]
      · rw [hh, converted_keys, List.map_cons, List.reverse_cons, getLastD_append_singleton]
      · intro q hq
        refine ⟨fun e1 => (hpost q hq).2 e1.symm, fun e1 => (hpost q hq).1 ?_, ?_⟩
        · exact (hexEncode_inj _ _ e1).symm
        · intro hin
          obtain ⟨u, _, hu⟩ := List.mem_map.mp hin
          have : (95 : Nat) ∈ hexEncode K := by
            rw [← hu]
            simp [oldKey]
          exact underscore_not_mem_hexEncode K this
    · intro hne hown hpost
      apply convertLoop_none_stays P post db2 db' (n + 1) n' hrest K _
        (fun q hq => ⟨fun e1 => (hpost q hq).1 e1.symm, (hpost q hq).2⟩)
      rw [hf K (hexEncode_ne_self K hne) (by rw [converted_keys, List.mem_reverse]; exact hown)]
      exact DB.Del_ok_same db db1 K hd
  | cons q pre' ih =>
    intro db db' n n' h
    simp only [List.cons_append, List.map_cons] at h
    obtain ⟨db1, db2, _, _, hrest⟩ := convertLoop_step_entry P db db' n n' q.1 q.2 _ h
    exact ih db2 db' (n + 1) n' hrest

/-- C9 (amended): in a completed migration run over the collected chains, the
head pointer of the chain stored under the raw owner-hash key `K` is stored
under the bytes of the hexadecimal string of `K`, the owner string that
`AddUtxos` receives, with the key of the newest record (the first decoded
entry) as its value, provided that no chain migrated later in the run has the
raw key `K` or a raw key equal to that string.  The raw key `K`, from which the
legacy entry was deleted, holds nothing afterwards, provided that it is not
empty, is not the key of a record of this or of a later chain, and is not the
hexadecimal string of the raw key of a later chain. -/
theorem head_pointer_under_hex_key (P : Proto) (db db' : DB)
    (pre post : List (Bytes × List OldUTXO)) (K : Bytes) (e : OldUTXO) (es : List OldUTXO)
    (n : Nat)
    (h : ConvertAndSaveUtxoIndexToDB P true db (indexOf (pre ++ (K, e :: es) :: post))
        = (Ending.completed, db', n)) :
    ((∀ q ∈ post, q.1 ≠ K ∧ q.1 ≠ hexEncode K) →
        db'.Get (Str2bytes (hexEncode K)) = some (oldKey e))
      ∧ (K ≠ [] → K ∉ (e :: es).map oldKey →
          (∀ q ∈ post, hexEncode q.1 ≠ K ∧ K ∉ q.2.map oldKey) → db'.Get K = none) := by
  have hloop : convertLoop P db 0 ((pre ++ (K, e :: es) :: post).map
      (fun q => (PubKeyHashString q.1, buildOld q.2))) = (Ending.completed, db', n) := by
    unfold ConvertAndSaveUtxoIndexToDB at h
    simp only [indexOf, List.length_map, ne_eq, not_true_eq_false, if_false,
      Bool.true_eq_false, List.zip_map'] at h
    split_ifs at h
    all_goals first | exact h | simp at h
  exact convertLoop_head_pointer P pre post K e es db db' 0 n hloop

/-- C9 (witness): in the run over the chains of the owners `[171]` and `[172]`
the head pointer of the first owner is stored under the string `ab`, and the
raw key `[171]` holds nothing. -/
theorem head_pointer_under_hex_key_witness :
    sampleTwoOwnersDB.Get (Str2bytes (hexEncode [171])) = some (oldKey sampleOldA)
      ∧ sampleTwoOwnersDB.Get [171] = none :=
  ⟨(head_pointer_under_hex_key sampleProto sampleLegacyDB sampleTwoOwnersDB []
      [([172], [sampleOldB])] [171] sampleOldA [] 2 (by decide)).1 (by decide),
   (head_pointer_under_hex_key sampleProto sampleLegacyDB sampleTwoOwnersDB []
      [([172], [sampleOldB])] [171] sampleOldA [] 2 (by decide)).2 (by decide) (by decide)
      (by decide)⟩

/-- The provisos of the head pointer theorem are needed: in the completed run
over the raw keys `[1]` and `01`, the second chain's deletion removes the head
pointer that the first chain stored under the string `01`. -/
theorem head_pointer_deleted_by_later_chain :
    ConvertAndSaveUtxoIndexToDB sampleProto true emptyDB
        (indexOf [([1], [sampleOldA]), ([48, 49], [sampleOldB])])
      = (Ending.completed,
          { kv := [([51, 48, 51, 49], [3, 4, 95, 48]),
                   ([3, 4, 95, 48], [7, 1, 171, 0, 2, 3, 4, 0, 0, 0, 0]),
                   ([1, 2, 95, 48], [5, 1, 171, 0, 2, 1, 2, 0, 0, 0, 0])],
            faults := [] }, 2)
      ∧ hexEncode [1] = [48, 49]
      ∧ DB.Get { kv := [([51, 48, 51, 49], [3, 4, 95, 48]),
                        ([3, 4, 95, 48], [7, 1, 171, 0, 2, 3, 4, 0, 0, 0, 0]),
                        ([1, 2, 95, 48], [5, 1, 171, 0, 2, 1, 2, 0, 0, 0, 0])],
                 faults := [] } (Str2bytes (hexEncode [1])) = none :=
  ⟨by decide, by decide, by decide⟩

end Upgrade

namespace Generator

/-! ### What the clearing step removes, in terms of the block log -/

theorem delVouts_effect (vouts : List TXOutput) :
    ∀ (db : DB) (keyExist : Bool) (looked : List Bytes),
      (delVouts db keyExist looked vouts).err = none →
      (∀ k v, (delVouts db keyExist looked vouts).db.Get k = some v → db.Get k = some v)
        ∧ (∀ vout ∈ vouts, (delVouts db keyExist looked vouts).db.Get vout.PubKeyHash = none)
        ∧ (∀ k, (delVouts db keyExist looked vouts).db.Get k ≠ db.Get k →
            ∃ vout ∈ vouts, vout.PubKeyHash = k) := by
  induction vouts with
  | nil =>
    intro db keyExist looked _
    exact ⟨fun _ _ h => h, fun _ h => absurd h (List.not_mem_nil _), fun _ h => absurd rfl h⟩
  | cons vout rest ih =>
    intro db keyExist looked herr
    cases hg : db.Get vout.PubKeyHash with
    | none =>
      simp only [delVouts, hg] at herr ⊢
      obtain ⟨h1, h2, h3⟩ := ih db keyExist (looked ++ [vout.PubKeyHash]) herr
      refine ⟨h1, ?_, ?_⟩
      · intro w hw
        rcases List.mem_cons.mp hw with e | e
        · subst e
          cases hr : (delVouts db keyExist (looked ++ [w.PubKeyHash]) rest).db.Get
              w.PubKeyHash with
          | none => rfl
          | some v => rw [h1 _ v hr] at hg; exact absurd hg (by simp)
        · exact h2 w e
      · intro k hk
        obtain ⟨w, hw, hwe⟩ := h3 k hk
        exact ⟨w, List.mem_cons_of_mem _ hw, hwe⟩
    | some v0 =>
      rcases hd : db.Del vout.PubKeyHash with ⟨e, db1⟩
      cases e with
      | some err => simp [delVouts, hg, hd] at herr
      | none =>
        simp only [delVouts, hg, hd] at herr ⊢
        obtain ⟨h1, h2, h3⟩ := ih db1 true (looked ++ [vout.PubKeyHash]) herr
        have hmono : ∀ k v, db1.Get k = some v → db.Get k = some v := by
          intro k v hk
          by_cases hkp : k = vout.PubKeyHash
          · rw [hkp, DB.Del_ok_same db db1 _ hd] at hk
            exact absurd hk (by simp)
          · rw [← DB.Del_ok_ne db db1 _ k hd hkp]
            exact hk
        refine ⟨fun k v hk => hmono k v (h1 k v hk), ?_, ?_⟩
        · intro w hw
          rcases List.mem_cons.mp hw with e | e
          · subst e
            cases hr : (delVouts db1 true (looked ++ [w.PubKeyHash]) rest).db.Get
                w.PubKeyHash with
            | none => rfl
            | some v =>
              have := h1 _ v hr
              rw [DB.Del_ok_same db db1 _ hd] at this
              exact absurd this (by simp)
          · exact h2 w e
        · intro k hk
          by_cases hkp : k = vout.PubKeyHash
          · exact ⟨vout, List.mem_cons_self _ _, hkp.symm⟩
          · rw [← DB.Del_ok_ne db db1 _ k hd hkp] at hk
            obtain ⟨w, hw, hwe⟩ := h3 k hk
            exact ⟨w, List.mem_cons_of_mem _ hw, hwe⟩

theorem oldDbLoop_effect {ι : Type} (E : Env ι) (tailHeight : Nat)
    (htl : tailHeight + 1 < 2 ^ 64) (fuel : Nat) :
    ∀ (i : Nat) (db : DB) (keyExist : Bool) (looked : List Bytes) (r : OldDbResult),
      oldDbLoop E tailHeight fuel i db keyExist looked = some r → r.err = none →
      (∀ k v, r.db.Get k = some v → db.Get k = some v)
        ∧ (∀ j, i ≤ j → j ≤ tailHeight → ∀ h raw, r.db.Get (E.UintToHex j) = some h →
            r.db.Get h = some raw → ∀ k ∈ ownerHashes (E.Deserialize raw), r.db.Get k = none)
        ∧ (∀ k, r.db.Get k ≠ db.Get k →
            ∃ j, i ≤ j ∧ j ≤ tailHeight ∧ ∃ h, db.Get (E.UintToHex j) = some h
              ∧ (k ∈ ownerHashes (E.Deserialize ((db.Get h).getD []))
                  ∨ k ∈ ownerHashes (E.Deserialize []))) := by
  induction fuel with
  | zero => intro i db keyExist looked r h; simp [oldDbLoop] at h
  | succ f ih =>
    intro i db keyExist looked r h herr
    simp only [oldDbLoop] at h
    split_ifs at h with hle
    · cases hgh : db.Get (E.UintToHex i) with
      | none =>
        simp only [GetBlockByHeight, hgh, Option.some.injEq] at h
        subst h
        simp at herr
      | some hash =>
        simp only [GetBlockByHeight, hgh] at h
        cases hde : (delVouts db keyExist looked
            (allVouts (E.Deserialize ((db.Get hash).getD [])).GetTransactions)).err with
        | some err =>
          rw [hde] at h
          simp only [Option.some.injEq] at h
          subst h
          rw [hde] at herr
          simp at herr
        | none =>
          rw [hde] at h
          simp only at h
          have hmod : (i + 1) % 2 ^ 64 = i + 1 := Nat.mod_eq_of_lt (by omega)
          rw [hmod] at h
          obtain ⟨d1, d2, d3⟩ := delVouts_effect _ db keyExist looked hde
          obtain ⟨g1, g2, g3⟩ := ih (i + 1) _ _ _ r h herr
          have hmono : ∀ k v, r.db.Get k = some v → db.Get k = some v :=
            fun k v hk => d1 k v (g1 k v hk)
          refine ⟨hmono, ?_, ?_⟩
          · intro j hij hjt h' raw hh hraw k hk
            by_cases hji : j = i
            · subst hji
              have e1 := hmono _ _ hh
              rw [hgh, Option.some.injEq] at e1
              subst e1
              have e2 := hmono _ _ hraw
              obtain ⟨vout, hv, hve⟩ := List.mem_map.mp hk
              have habs := d2 vout (by rw [e2]; exact hv)
              rw [hve] at habs
              cases hr : r.db.Get k with
              | none => rfl
              | some v => rw [g1 k v hr] at habs; exact absurd habs (by simp)
            · exact g2 j (by omega) hjt h' raw hh hraw k hk
          · intro k hk
            by_cases hk1 : (delVouts db keyExist looked
                (allVouts (E.Deserialize ((db.Get hash).getD [])).GetTransactions)).db.Get k
                  = db.Get k
            · rw [← hk1] at hk
              obtain ⟨j, hj1, hj2, h', hh, hor⟩ := g3 k hk
              refine ⟨j, by omega, hj2, h', d1 _ _ hh, ?_⟩
              cases hgd : (delVouts db keyExist looked
                  (allVouts (E.Deserialize ((db.Get hash).getD [])).GetTransactions)).db.Get h'
                with
              | none =>
                rw [hgd] at hor
                simp only [Option.getD_none, or_self] at hor
                exact Or.inr hor
              | some raw =>
                rw [hgd] at hor
                rw [d1 _ _ hgd]
                exact hor
            · obtain ⟨vout, hv, hve⟩ := d3 k hk1
              exact ⟨i, le_rfl, hle, hash, hgh,
                Or.inl (List.mem_map.mpr ⟨vout, hv, hve⟩)⟩
    · simp only [Option.some.injEq] at h
      subst h
      exact ⟨fun _ _ hk => hk, fun j hij hjt => absurd (le_trans hij hjt) (by omega),
        fun _ hk => absurd rfl hk⟩

/-- C10 (amended): when `DeleteAllUtxosFromOldDb` returns without error, for
every height from 0 to the tail height whose height entry and block bytes are
in the store afterwards, no entry keyed by the raw owner hash of an output of
that block remains; so for every block that the store had at one of these
heights, either no entry keyed by the raw owner hash of one of its outputs
remains, or its height entry or its block bytes were themselves removed.  No
entry has been added or changed, and every entry that was removed was keyed
by the raw owner hash of an output of a block that the log has at one of
these heights (read from the block bytes, or from no bytes when they are
missing).  Entries under other keys stay. -/
theorem DeleteAllUtxosFromOldDb_removes_raw_owner_keys {ι : Type} (E : Env ι) (fuel : Nat)
    (db : DB) (r : OldDbResult) (tailBlock : Block)
    (htail : GetTailBlock E db = Except.ok tailBlock)
    (h : DeleteAllUtxosFromOldDb E fuel db = some r) (herr : r.err = none) :
    (∀ j, j ≤ tailBlock.GetHeight → ∀ hash raw, r.db.Get (E.UintToHex j) = some hash →
        r.db.Get hash = some raw → ∀ k ∈ ownerHashes (E.Deserialize raw), r.db.Get k = none)
      ∧ (∀ j, j ≤ tailBlock.GetHeight → ∀ hash raw, db.Get (E.UintToHex j) = some hash →
          db.Get hash = some raw →
          (∀ k ∈ ownerHashes (E.Deserialize raw), r.db.Get k = none)
            ∨ r.db.Get (E.UintToHex j) = none ∨ r.db.Get hash = none)
      ∧ (∀ k v, r.db.Get k = some v → db.Get k = some v)
      ∧ (∀ k, r.db.Get k ≠ db.Get k →
          ∃ j, j ≤ tailBlock.GetHeight ∧ ∃ hash, db.Get (E.UintToHex j) = some hash
            ∧ (k ∈ ownerHashes (E.Deserialize ((db.Get hash).getD []))
                ∨ k ∈ ownerHashes (E.Deserialize []))) := by
  have htl := DeleteAllUtxosFromOldDb_ok_tail E fuel db tailBlock r htail h herr
  simp only [DeleteAllUtxosFromOldDb, htail] at h
  obtain ⟨g1, g2, g3⟩ := oldDbLoop_effect E _ htl fuel 0 db false [] r h herr
  refine ⟨fun j hj => g2 j (Nat.zero_le _) hj, ?_, g1, ?_⟩
  · intro j hj hash raw hh hraw
    cases h1 : r.db.Get (E.UintToHex j) with
    | none => exact Or.inr (Or.inl rfl)
    | some hash' =>
      have e1 := g1 _ _ h1
      rw [hh, Option.some.injEq] at e1
      subst e1
      cases h2 : r.db.Get hash with
      | none => exact Or.inr (Or.inr rfl)
      | some raw' =>
        have e2 := g1 _ _ h2
        rw [hraw, Option.some.injEq] at e2
        subst e2
        exact Or.inl (g2 j (Nat.zero_le _) hj hash raw h1 h2)
  · intro k hk
    obtain ⟨j, _, hj, hash, hh, hor⟩ := g3 k hk
    exact ⟨j, hj, hash, hh, hor⟩

/-- C10 (witness): clearing `sampleBlockDB`, whose block of height 0 has one
output owned by `[171]`, leaves no entry under the raw key `[171]` and adds or
changes no entry. -/
theorem DeleteAllUtxosFromOldDb_removes_raw_owner_keys_witness :
    ∃ r, DeleteAllUtxosFromOldDb sampleEnv 3 sampleBlockDB = some r
      ∧ sampleBlockDB.Get [171] = some Upgrade.sampleChain2
      ∧ r.db.Get [171] = none
      ∧ (∀ k v, r.db.Get k = some v → sampleBlockDB.Get k = some v) :=
  ⟨_, rfl, by decide,
    (DeleteAllUtxosFromOldDb_removes_raw_owner_keys sampleEnv 3 sampleBlockDB _
      (sampleDeserialize [0, 171]) rfl rfl rfl).1 0 (by decide) [9] [0, 171] (by decide)
      (by decide) [171] (by decide),
    (DeleteAllUtxosFromOldDb_removes_raw_owner_keys sampleEnv 3 sampleBlockDB _
      (sampleDeserialize [0, 171]) rfl rfl rfl).2.2.1⟩

end Generator
